import Mathlib

/-!
Verification of `containerofunique::deque_of_unique`.

Shallow embedding of `src/dequeofunique.h`.

* The Sequence Store `std::deque<T> deque_` is a `List T` (index 0 is the front).
* The Membership Index `std::unordered_set<T> set_` is a `Finset T`; the default
  `KeyEqual = std::equal_to<T>` is the decidable equality of `T`.
  `set_.insert(v).second` is `true` exactly when `v` was not in the set, and the
  set then holds `v`; `set_.erase(v)` removes `v` when it is there.
* A `const_iterator` is the offset from `cbegin()`, a `Nat`; `cend()` is `size()`.
  The standard gives a meaning to `deque_.insert(pos, _)` for `0 ≤ pos ≤ size()`
  and to `deque_.erase(pos)` for `0 ≤ pos < size()`; statements about these carry
  the range as a hypothesis.
* A reference to a live element is the element it is bound to. `pop_front()` and
  `pop_back()` read a reference after its referent was destroyed (followed statement
  by statement in `pop_front_key` and `pop_back_key`); the language does not define
  what such a read yields, so both functions take the value read as the argument
  `key`.
-/

set_option autoImplicit false

namespace containerofunique

/-! ## The sequence primitives of `std::deque` used by the class -/

/-- The sequence after `std::deque::insert(pos, value)`: `value` stands before the
element that was at offset `pos`. -/
def deque_insert {T : Type} (d : List T) (pos : Nat) (value : T) : List T :=
  d.take pos ++ value :: d.drop pos

/-- The sequence after `std::deque::erase(pos)`. -/
def deque_erase {T : Type} (d : List T) (pos : Nat) : List T :=
  d.take pos ++ d.drop (pos + 1)

/-- The sequence after `std::deque::erase(first, last)`, the half-open range. -/
def deque_erase_range {T : Type} (d : List T) (first last : Nat) : List T :=
  d.take first ++ d.drop last

/-- The result of `operator==` of `std::deque`: the sizes are equal and the elements
are equal position by position. -/
def deque_eq {T : Type} [DecidableEq T] (lhs rhs : List T) : Bool :=
  lhs.length == rhs.length && (lhs.zip rhs).all (fun p => p.1 == p.2)

/-- The result of `operator<=>` of `std::deque`, the lexicographical three-way
comparison: the first position where the elements differ decides; when one sequence
ends first it is the smaller one; `Ordering.lt`, `Ordering.eq` and `Ordering.gt`
stand for `less`, `equal` (`equivalent`) and `greater`. -/
def deque_compare_three_way {α : Type} [LinearOrder α] : List α → List α → Ordering
  | [], [] => Ordering.eq
  | [], _ :: _ => Ordering.lt
  | _ :: _, [] => Ordering.gt
  | x :: xs, y :: ys =>
    if x < y then Ordering.lt
    else if y < x then Ordering.gt
    else deque_compare_three_way xs ys

/-- The class `deque_of_unique<T>`: its two private members. -/
structure deque_of_unique (T : Type) [DecidableEq T] where
  /-- Sequence Store. -/
  deque_ : List T
  /-- Membership Index. -/
  set_ : Finset T

namespace deque_of_unique

variable {T : Type} [DecidableEq T]

/-- Two containers are the same state when both stores agree. -/
instance : DecidableEq (deque_of_unique T) := fun a b =>
  decidable_of_iff (a.deque_ = b.deque_ ∧ a.set_ = b.set_)
    (by cases a; cases b; simp)

/-! ## Capacity and the read-only views -/

/-- Member `empty()`: `deque_.empty()`. -/
def empty (c : deque_of_unique T) : Bool := c.deque_.isEmpty

/-- Member `size()`: `deque_.size()`. -/
def size (c : deque_of_unique T) : Nat := c.deque_.length

/-- Member `cbegin()` as an offset. -/
def cbegin (_c : deque_of_unique T) : Nat := 0

/-- Member `cend()` as an offset. -/
def cend (c : deque_of_unique T) : Nat := c.deque_.length

/-! ## Element access -/

/-- The failure that `std::deque::at` signals, `std::out_of_range`. -/
inductive access_error where
  | out_of_range
deriving DecidableEq, Repr

/-- Member `at(pos)`: `deque_.at(pos)`, which checks `pos` against `size()`, throws
`std::out_of_range` when `pos >= size()` and otherwise returns a reference to the
element at `pos`. The member is `const`: the container is not part of the result. -/
def at_ (c : deque_of_unique T) (pos : Nat) : Except access_error T :=
  if h : pos < c.deque_.length then Except.ok (c.deque_.get ⟨pos, h⟩)
  else Except.error access_error.out_of_range

/-- Member `front()`: `deque_.front()`, the first element; the standard gives it no
meaning on an empty deque, which is `none` here. The member is `const`. -/
def front (c : deque_of_unique T) : Option T := c.deque_.head?

/-- Member `operator[](pos)`: `deque_[pos]`, the element at `pos` without a bounds
check; the standard gives it no meaning for `pos >= size()`, which is `none` here.
The member is `const`. -/
def operator_subscript (c : deque_of_unique T) (pos : Nat) : Option T := c.deque_[pos]?

/-- Member `back()`: `deque_.back()`, the last element; the standard gives it no
meaning on an empty deque, which is `none` here. The member is `const`. -/
def back (c : deque_of_unique T) : Option T := c.deque_.getLast?

/-! ## Iterators -/

/-- Member `crbegin()`: the reverse iterator whose base is `deque_.cend()`; a
reverse iterator is represented by the offset of its base. -/
def crbegin (c : deque_of_unique T) : Nat := c.deque_.length

/-- Member `crend()`: the reverse iterator whose base is `deque_.cbegin()`. -/
def crend (_c : deque_of_unique T) : Nat := 0

/-- Dereference of a `const_iterator` at offset `it`: the element there, `none`
at or past the end. -/
def deref (c : deque_of_unique T) (it : Nat) : Option T := c.deque_[it]?

/-- Dereference of a `const_reverse_iterator` with base `r`: the element just
before the base, `none` when the base is `cbegin()`. -/
def deref_reverse (c : deque_of_unique T) (r : Nat) : Option T :=
  if r = 0 then none else c.deque_[r - 1]?

/-- The elements visited by `for (it = first; it != last; ++it) visit(*it)` over
`const_iterator`s of `c`, in the order visited; `fuel` bounds the number of steps. -/
def visit_forward (c : deque_of_unique T) : Nat → Nat → Nat → List T
  | 0, _, _ => []
  | fuel + 1, it, last =>
    if it = last then []
    else
      match deref c it with
      | some x => x :: visit_forward c fuel (it + 1) last
      | none => []

/-- The elements visited by `for (r = first; r != last; ++r) visit(*r)` over
`const_reverse_iterator`s of `c`, in the order visited: `++r` moves the base one
position down; `fuel` bounds the number of steps. -/
def visit_reverse (c : deque_of_unique T) : Nat → Nat → Nat → List T
  | 0, _, _ => []
  | fuel + 1, r, last =>
    if r = last then []
    else
      match deref_reverse c r with
      | some x => x :: visit_reverse c fuel (r - 1) last
      | none => []

/-! ## Modifiers -/

/-- Member `deque_of_unique() = default`. -/
def mk_default : deque_of_unique T := { deque_ := [], set_ := ∅ }

/-- Member `clear()`. -/
def clear (_c : deque_of_unique T) : deque_of_unique T := { deque_ := [], set_ := ∅ }

/-- Member `push_back(value)` (both overloads): the new state and the returned flag. -/
def push_back (c : deque_of_unique T) (value : T) : deque_of_unique T × Bool :=
  if value ∉ c.set_ then
    ({ deque_ := c.deque_ ++ [value], set_ := Insert.insert value c.set_ }, true)
  else (c, false)

/-- Member `push_front(value)` (both overloads): the new state and the returned flag. -/
def push_front (c : deque_of_unique T) (value : T) : deque_of_unique T × Bool :=
  if value ∉ c.set_ then
    ({ deque_ := value :: c.deque_, set_ := Insert.insert value c.set_ }, true)
  else (c, false)

/-- Member `pop_front()`: when the deque is not empty, the reference `f` is bound to
`deque_.front()`, then `deque_.pop_front()` removes and destroys the first element,
then `set_.erase(f)` reads `f`. The referent of `f` no longer exists at that read:
`key` is the value the read yields, which the language leaves undefined, and the
set erases `key`. On an empty deque the body is skipped and nothing is read. -/
def pop_front (c : deque_of_unique T) (key : T) : deque_of_unique T :=
  match c.deque_ with
  | [] => c
  | _ :: rest => { deque_ := rest, set_ := c.set_.erase key }

/-- Member `pop_back()`: when the deque is not empty, the reference `f` is bound to
`deque_.back()`, then `deque_.pop_back()` removes and destroys the last element,
then `set_.erase(f)` reads `f`. The referent of `f` no longer exists at that read:
`key` is the value the read yields, which the language leaves undefined, and the
set erases `key`. On an empty deque the body is skipped and nothing is read. -/
def pop_back (c : deque_of_unique T) (key : T) : deque_of_unique T :=
  match c.deque_.getLast? with
  | none => c
  | some _ => { deque_ := c.deque_.dropLast, set_ := c.set_.erase key }

/-- Member `erase(pos)`: on an empty deque returns `cend()` and changes nothing; otherwise
erases `*pos` from the set and the element at `pos` from the deque, and returns
what `deque_.erase(pos)` returns, the offset `pos`. Dereferencing `pos` has a
meaning only for `pos < size()`; outside it the state is returned as it was. -/
def erase (c : deque_of_unique T) (pos : Nat) : deque_of_unique T × Nat :=
  if c.deque_.isEmpty then (c, c.deque_.length)
  else
    match c.deque_[pos]? with
    | some x => ({ deque_ := deque_erase c.deque_ pos, set_ := c.set_.erase x }, pos)
    | none => (c, pos)

/-- Member `erase(first, last)`: returns `last` when `first == last`; otherwise erases
from the set every element of `[first, last)`, then the range from the deque, and
returns what `deque_.erase(first, last)` returns, the offset `first`. -/
def erase_range (c : deque_of_unique T) (first last : Nat) : deque_of_unique T × Nat :=
  if first = last then (c, last)
  else
    ({ deque_ := deque_erase_range c.deque_ first last,
       set_ := ((c.deque_.take last).drop first).foldl (fun s x => s.erase x) c.set_ },
     first)

/-- Member `insert(pos, value)` (both overloads): the new state, the returned iterator and
the returned flag. -/
def insert (c : deque_of_unique T) (pos : Nat) (value : T) :
    deque_of_unique T × Nat × Bool :=
  if value ∉ c.set_ then
    ({ deque_ := deque_insert c.deque_ pos value, set_ := Insert.insert value c.set_ },
     pos, true)
  else (c, pos, false)

/-- The local variables of the loop of `insert(pos, first, last)`, with the
container itself. -/
structure insert_loop (T : Type) [DecidableEq T] where
  /-- The container. -/
  self : deque_of_unique T
  /-- The local `temp_pos`, as an offset. -/
  temp_pos : Nat
  /-- The local `first_inserted_index`. -/
  first_inserted_index : Nat
  /-- The local `any_inserted`. -/
  any_inserted : Bool

/-- One iteration of the loop of `insert(pos, first, last)` at the element `x = *it`. -/
def insert_range_step (st : insert_loop T) (x : T) : insert_loop T :=
  if x ∉ st.self.set_ then
    { self := { deque_ := deque_insert st.self.deque_ st.temp_pos x,
                set_ := Insert.insert x st.self.set_ },
      temp_pos := st.temp_pos + 1,
      first_inserted_index := if st.any_inserted then st.first_inserted_index else st.temp_pos,
      any_inserted := true }
  else st

/-- The loop of `insert(pos, first, last)` over the input range `xs`. -/
def insert_range_loop (c : deque_of_unique T) (pos : Nat) (xs : List T) : insert_loop T :=
  xs.foldl insert_range_step
    { self := c, temp_pos := pos, first_inserted_index := pos, any_inserted := false }

/-- Member `insert(pos, first, last)` and `insert(pos, ilist)`: the new state and the
returned iterator. -/
def insert_range (c : deque_of_unique T) (pos : Nat) (xs : List T) :
    deque_of_unique T × Nat :=
  let st := insert_range_loop c pos xs
  (st.self, if st.any_inserted then st.first_inserted_index else pos)

/-- Member `emplace(pos, args...)`: `value` is the object the arguments construct, both in
`set_.emplace` and in `deque_.emplace`. -/
def emplace (c : deque_of_unique T) (pos : Nat) (value : T) :
    deque_of_unique T × Nat × Bool :=
  if value ∉ c.set_ then
    ({ deque_ := deque_insert c.deque_ pos value, set_ := Insert.insert value c.set_ },
     pos, true)
  else (c, pos, false)

/-- Member `emplace_front(args...)`: the new state and the optional reference, which is
the reference `deque_.emplace_front` returns, to the new front element. -/
def emplace_front (c : deque_of_unique T) (value : T) : deque_of_unique T × Option T :=
  if value ∉ c.set_ then
    ({ deque_ := value :: c.deque_, set_ := Insert.insert value c.set_ },
     (value :: c.deque_).head?)
  else (c, none)

/-- Member `emplace_back(args...)`: the new state and the optional reference, which is the
reference `deque_.emplace_back` returns, to the new back element. -/
def emplace_back (c : deque_of_unique T) (value : T) : deque_of_unique T × Option T :=
  if value ∉ c.set_ then
    ({ deque_ := c.deque_ ++ [value], set_ := Insert.insert value c.set_ },
     (c.deque_ ++ [value]).getLast?)
  else (c, none)

/-- Member `_push_back(first, last)` and `_push_back(const std::deque<T>&)`: `push_back` of
every entry in order. -/
def _push_back (c : deque_of_unique T) (xs : List T) : deque_of_unique T :=
  xs.foldl (fun acc x => (push_back acc x).1) c

/-- Member `deque_of_unique(first, last)` and `deque_of_unique(init)`. -/
def mk_range (xs : List T) : deque_of_unique T := _push_back mk_default xs

/-- Member `deque_of_unique(const deque_of_unique &other)`: `_push_back(other)`, which is
`_push_back(other.deque_)`. -/
def mk_copy (other : deque_of_unique T) : deque_of_unique T :=
  _push_back mk_default other.deque_

/-- Member `deque_of_unique(deque_of_unique &&other)`: both members, default-initialised,
are swapped with the members of `other`. First the new object, second `other`
after the call. -/
def mk_move (other : deque_of_unique T) : deque_of_unique T × deque_of_unique T :=
  ({ deque_ := other.deque_, set_ := other.set_ }, { deque_ := [], set_ := ∅ })

/-- Member `operator=(std::initializer_list<T> ilist)`: a temporary is constructed from
the list and both members are swapped with it. -/
def assign_ilist (_c : deque_of_unique T) (ilist : List T) : deque_of_unique T :=
  let temp : deque_of_unique T := mk_range ilist
  { deque_ := temp.deque_, set_ := temp.set_ }

/-- Member `a.swap(b)`: `a` and `b` after the call. -/
def swap (a b : deque_of_unique T) : deque_of_unique T × deque_of_unique T :=
  ({ deque_ := b.deque_, set_ := b.set_ }, { deque_ := a.deque_, set_ := a.set_ })

/-! ## The invariants and the reachable states -/

/-- The invariants I1, I2 and I3 of the data model: the two stores have the same
number of elements, the same members, and no two positions of the sequence hold
equal elements. -/
def Inv (c : deque_of_unique T) : Prop :=
  c.deque_.length = c.set_.card ∧ (∀ x, x ∈ c.deque_ ↔ x ∈ c.set_) ∧ c.deque_.Nodup

/-- The states a program can produce: the constructors, then any of the public
mutators, those taking iterators called with iterators into the container.
`erase(pos)` takes a dereferenceable iterator, or `cbegin()` of an empty
container. `pop_front()` and `pop_back()` come with the value `key` that their read
of the destroyed element yields, whatever it is. -/
inductive Reachable : deque_of_unique T → Prop
  | mk_default : Reachable mk_default
  | mk_range (xs : List T) : Reachable (mk_range xs)
  | mk_copy {other : deque_of_unique T} : Reachable other → Reachable (mk_copy other)
  | mk_move_new {other : deque_of_unique T} : Reachable other → Reachable (mk_move other).1
  | mk_move_source {other : deque_of_unique T} :
      Reachable other → Reachable (mk_move other).2
  | push_front {c : deque_of_unique T} (v : T) : Reachable c → Reachable (push_front c v).1
  | push_back {c : deque_of_unique T} (v : T) : Reachable c → Reachable (push_back c v).1
  | pop_front {c : deque_of_unique T} (key : T) : Reachable c → Reachable (pop_front c key)
  | pop_back {c : deque_of_unique T} (key : T) : Reachable c → Reachable (pop_back c key)
  | insert {c : deque_of_unique T} (pos : Nat) (v : T) :
      Reachable c → pos ≤ c.size → Reachable (insert c pos v).1
  | insert_range {c : deque_of_unique T} (pos : Nat) (xs : List T) :
      Reachable c → pos ≤ c.size → Reachable (insert_range c pos xs).1
  | emplace {c : deque_of_unique T} (pos : Nat) (v : T) :
      Reachable c → pos ≤ c.size → Reachable (emplace c pos v).1
  | emplace_front {c : deque_of_unique T} (v : T) :
      Reachable c → Reachable (emplace_front c v).1
  | emplace_back {c : deque_of_unique T} (v : T) :
      Reachable c → Reachable (emplace_back c v).1
  | erase {c : deque_of_unique T} (pos : Nat) :
      Reachable c → (pos < c.size ∨ (c.size = 0 ∧ pos = 0)) → Reachable (erase c pos).1
  | erase_range {c : deque_of_unique T} (first last : Nat) :
      Reachable c → first ≤ last → last ≤ c.size → Reachable (erase_range c first last).1
  | clear {c : deque_of_unique T} : Reachable c → Reachable (clear c)
  | swap_left {a b : deque_of_unique T} : Reachable a → Reachable b → Reachable (swap a b).1
  | swap_right {a b : deque_of_unique T} :
      Reachable a → Reachable b → Reachable (swap a b).2
  | assign_ilist {c : deque_of_unique T} (ilist : List T) :
      Reachable c → Reachable (assign_ilist c ilist)

end deque_of_unique

/-- The list `xs` with every element after its first occurrence removed, the
remaining elements in their original order. -/
def keep_first_occurrence {T : Type} [DecidableEq T] : List T → List T
  | [] => []
  | x :: xs => x :: (keep_first_occurrence xs).filter (fun y => y ≠ x)

/-- The elements of `xs` that are not members of `s`, with every repeat after its
first occurrence in `xs` removed, in input order: what a range insert of `xs` into
a container with sequence `s` is to add. -/
def accepted_elements {T : Type} [DecidableEq T] (s xs : List T) : List T :=
  keep_first_occurrence (xs.filter (fun x => x ∉ s))

/-- The state after `clear()` followed by `push_back` of each element of `xs` in
order: what the assignment of a replacement list is to produce. -/
def clear_then_push_back {T : Type} [DecidableEq T] (c : deque_of_unique T) (xs : List T) :
    deque_of_unique T :=
  xs.foldl (fun acc x => (deque_of_unique.push_back acc x).1) (deque_of_unique.clear c)

/-- The first position where two sequences differ holds the smaller element in the
left one: position `i` holds `x` on the left and `y` on the right with `x < y`, and
the sequences agree before `i`. -/
def first_difference_smaller {α : Type} [LT α] (l₁ l₂ : List α) : Prop :=
  ∃ (i : Nat) (x y : α), l₁[i]? = some x ∧ l₂[i]? = some y ∧ x < y ∧
    ∀ j, j < i → l₁[j]? = l₂[j]?

/-- The left sequence is a proper prefix of the right one. -/
def proper_prefix {α : Type} (l₁ l₂ : List α) : Prop :=
  l₁ <+: l₂ ∧ l₁.length < l₂.length

/-! ## Non-member operators -/

/-- Non-member `operator==`: `lhs.deque() == rhs.deque()`. -/
def operator_eq {T : Type} [DecidableEq T] (lhs rhs : deque_of_unique T) : Bool :=
  deque_eq lhs.deque_ rhs.deque_

/-- Non-member `operator!=`: `!(lhs == rhs)`. -/
def operator_ne {T : Type} [DecidableEq T] (lhs rhs : deque_of_unique T) : Bool :=
  !(operator_eq lhs rhs)

/-- Non-member `operator<=>`: `lhs.deque() <=> rhs.deque()`. -/
def operator_spaceship {α : Type} [DecidableEq α] [LinearOrder α]
    (lhs rhs : deque_of_unique α) : Ordering :=
  deque_compare_three_way lhs.deque_ rhs.deque_

/- Non-member `operator<`: the body in the source reads
`(lhs..deque() <=> rhs..deque()) == std::weak_ordering::less`. `lhs..deque()` is no
expression of the language, so the source defines no function here and none is
embedded. -/

/-- Non-member `operator<=`: `cmp == less || cmp == equivalent` for
`cmp = lhs.deque() <=> rhs.deque()`. -/
def operator_le {α : Type} [DecidableEq α] [LinearOrder α]
    (lhs rhs : deque_of_unique α) : Bool :=
  let cmp := deque_compare_three_way lhs.deque_ rhs.deque_
  cmp == Ordering.lt || cmp == Ordering.eq

/-- Non-member `operator>`: `(lhs.deque() <=> rhs.deque()) == greater`. -/
def operator_gt {α : Type} [DecidableEq α] [LinearOrder α]
    (lhs rhs : deque_of_unique α) : Bool :=
  deque_compare_three_way lhs.deque_ rhs.deque_ == Ordering.gt

/-- Non-member `operator>=`: `cmp == greater || cmp == equivalent` for
`cmp = lhs.deque() <=> rhs.deque()`. -/
def operator_ge {α : Type} [DecidableEq α] [LinearOrder α]
    (lhs rhs : deque_of_unique α) : Bool :=
  let cmp := deque_compare_three_way lhs.deque_ rhs.deque_
  cmp == Ordering.gt || cmp == Ordering.eq

/-! ## Operations the tests call that the header does not declare -/

/-- Modelled from the spec: the member `find(value)` is called by the tests and is
not declared in `src/dequeofunique.h`. It "returns an iterator to the matching
Sequence element, or end-iterator if absent; implemented via an Index membership
check composed with a Sequence scan": the offset of the first match of the scan
when the index holds `value`, `cend()` otherwise. -/
def deque_of_unique.find {T : Type} [DecidableEq T] (c : deque_of_unique T) (value : T) : Nat :=
  if value ∈ c.set_ then c.deque_.indexOf value else c.cend

/-- Modelled from the spec: the member `assign` (iterator range or initializer list)
is called by the tests and is not declared in `src/dequeofunique.h`. The
"assignment from a replacement value list fully replaces contents (equivalent to
clear + bulk-insert)": `clear()`, then the bulk `_push_back` of the list. -/
def deque_of_unique.assign {T : Type} [DecidableEq T] (c : deque_of_unique T) (xs : List T) :
    deque_of_unique T :=
  deque_of_unique._push_back (deque_of_unique.clear c) xs

/-- Modelled from the spec: the non-member `erase(container, value)` is called by the
tests and is not declared in `src/dequeofunique.h`. It "removes at most one
occurrence equal to `value`; returns count removed (0 or 1)", from both stores. -/
def erase {T : Type} [DecidableEq T] (c : deque_of_unique T) (value : T) :
    deque_of_unique T × Nat :=
  if value ∈ c.deque_ then
    ({ deque_ := c.deque_.erase value, set_ := c.set_.erase value }, 1)
  else (c, 0)

/-- Modelled from the spec: the non-member `erase_if(container, predicate)` is called
by the tests and is not declared in `src/dequeofunique.h`. It "removes every element
satisfying `predicate`, testing each exactly once in sequence order; returns total
count removed; both stores updated for every removal": one pass over the elements
in sequence order, each tested once; an element that satisfies the predicate is
removed from both stores and counted. -/
def erase_if {T : Type} [DecidableEq T] (c : deque_of_unique T) (pred : T → Bool) :
    deque_of_unique T × Nat :=
  c.deque_.foldl
    (fun acc x =>
      if pred x then
        ({ deque_ := acc.1.deque_.erase x, set_ := acc.1.set_.erase x }, acc.2 + 1)
      else acc)
    (c, 0)

/-! ## Relations between states that the properties speak of -/

/-- The elements present both before and after a call stand in the same relative
order in both sequences. -/
def same_relative_order {T : Type} [DecidableEq T] (before after : List T) : Prop :=
  after.filter (fun x => x ∈ before) = before.filter (fun x => x ∈ after)

/-- The elements of `xs` inserted one at a time with `insert(q, x)`, starting at
`q = pos`; `q` advances by one after each insert that reports success and stays
after each one that reports failure. The final state and the final `q`. -/
def insert_one_by_one {T : Type} [DecidableEq T] (c : deque_of_unique T) (pos : Nat)
    (xs : List T) : deque_of_unique T × Nat :=
  xs.foldl
    (fun acc x =>
      let r := deque_of_unique.insert acc.1 acc.2 x
      if r.2.2 then (r.1, acc.2 + 1) else (r.1, acc.2))
    (c, pos)

/-! ## Object lifetime in `pop_front` and `pop_back` -/

/-- The elements of the deque as objects: each element with the place it was
constructed at, its offset when the call starts. A reference designates a place. -/
def deque_of_unique.objects {T : Type} [DecidableEq T] (c : deque_of_unique T) :
    List (Nat × T) :=
  c.deque_.enum

/-- A read through a reference to the object at `place`: its value while the object
is among the live ones, `none` once the deque has destroyed it. -/
def read_reference {T : Type} (live : List (Nat × T)) (place : Nat) : Option T :=
  (live.find? (fun o => o.1 == place)).map Prod.snd

/-- The key that `set_.erase(f)` reads in `pop_front()`, statement by statement:
`const auto &f = deque_.front()` binds `f` to the first object; `deque_.pop_front()`
destroys that object, the others stay live; `set_.erase(f)` then reads through `f`.
The outer `none` is the empty deque, where the body is skipped. -/
def deque_of_unique.pop_front_key {T : Type} [DecidableEq T] (c : deque_of_unique T) :
    Option (Option T) :=
  match c.objects with
  | [] => none
  | f :: live => some (read_reference live f.1)

/-- The key that `set_.erase(f)` reads in `pop_back()`, statement by statement:
`const auto &f = deque_.back()` binds `f` to the last object; `deque_.pop_back()`
destroys that object, the others stay live; `set_.erase(f)` then reads through `f`.
The outer `none` is the empty deque, where the body is skipped. -/
def deque_of_unique.pop_back_key {T : Type} [DecidableEq T] (c : deque_of_unique T) :
    Option (Option T) :=
  match c.objects.getLast? with
  | none => none
  | some f => some (read_reference c.objects.dropLast f.1)

/-- A string of 32 characters. A `std::string` of this length keeps its characters
in a buffer of its own, which the destructor of the string releases. -/
def long_a : String := "alpha-alpha-alpha-alpha-alpha-01"

/-- A second string of 32 characters. -/
def long_b : String := "bravo-bravo-bravo-bravo-bravo-02"

/-- A third string of 32 characters. -/
def long_c : String := "delta-delta-delta-delta-delta-03"

/-- A fourth string of 32 characters. -/
def long_d : String := "hotel-hotel-hotel-hotel-hotel-04"

/-- An example of what a read of the released buffer of a destroyed 32-character
string yields once the allocator has written over its first bytes: 32 bytes that
are none of the strings above. -/
def freed_bytes : String := "################-bytes-of-a-free"

/-! ## Facts about the sequence primitives -/

theorem deque_insert_perm {T : Type} (d : List T) (pos : Nat) (v : T) :
    (deque_insert d pos v).Perm (v :: d) := by
  unfold deque_insert
  have h := @List.perm_middle T v (d.take pos) (d.drop pos)
  rwa [List.take_append_drop] at h

theorem deque_erase_perm {T : Type} (d : List T) (pos : Nat) (x : T)
    (hx : d[pos]? = some x) : d.Perm (x :: deque_erase d pos) := by
  unfold deque_erase
  obtain ⟨hlt, hget⟩ := List.getElem?_eq_some_iff.mp hx
  have hd : d = d.take pos ++ x :: d.drop (pos + 1) := by
    conv_lhs => rw [← List.take_append_drop pos d]
    rw [List.drop_eq_getElem_cons hlt, hget]
  conv_lhs => rw [hd]
  exact List.perm_middle

theorem deque_erase_range_split {T : Type} (d : List T) (first last : Nat)
    (h : first ≤ last) :
    d = d.take first ++ ((d.take last).drop first ++ d.drop last) := by
  have h1 : (d.take last).take first = d.take first := by
    rw [List.take_take, Nat.min_eq_left h]
  have h2 : d.take last = d.take first ++ (d.take last).drop first := by
    conv_lhs => rw [← List.take_append_drop first (d.take last), h1]
  conv_lhs => rw [← List.take_append_drop last d, h2]
  simp

theorem foldl_erase_eq {T : Type} [DecidableEq T] (l : List T) (s : Finset T) :
    l.foldl (fun s x => s.erase x) s = s \ l.toFinset := by
  induction l generalizing s with
  | nil => simp
  | cons a l ih =>
    simp only [List.foldl_cons, ih, List.toFinset_cons]
    ext y
    simp only [Finset.mem_sdiff, Finset.mem_erase, Finset.mem_insert, List.mem_toFinset]
    tauto

namespace deque_of_unique

variable {T : Type} [DecidableEq T]

/-! ## The invariants in the form the proofs use -/

theorem inv_iff (c : deque_of_unique T) :
    Inv c ↔ c.deque_.Nodup ∧ c.set_ = c.deque_.toFinset := by
  constructor
  · rintro ⟨_, hmem, hnd⟩
    refine ⟨hnd, ?_⟩
    ext x
    rw [List.mem_toFinset]
    exact (hmem x).symm
  · rintro ⟨hnd, hset⟩
    refine ⟨?_, ?_, hnd⟩
    · rw [hset, List.toFinset_card_of_nodup hnd]
    · intro x
      rw [hset, List.mem_toFinset]

theorem inv_of_perm_cons {c : deque_of_unique T} (hc : Inv c) {v : T} (hv : v ∉ c.set_)
    {d : List T} (hd : d.Perm (v :: c.deque_)) :
    Inv { deque_ := d, set_ := Insert.insert v c.set_ } := by
  rw [inv_iff] at hc ⊢
  obtain ⟨hnd, hset⟩ := hc
  have hv' : v ∉ c.deque_ := by
    rw [hset, List.mem_toFinset] at hv
    exact hv
  refine ⟨hd.nodup_iff.mpr (List.nodup_cons.mpr ⟨hv', hnd⟩), ?_⟩
  show Insert.insert v c.set_ = d.toFinset
  rw [List.toFinset_eq_of_perm _ _ hd, List.toFinset_cons, hset]

theorem inv_of_cons_perm {c : deque_of_unique T} (hc : Inv c) {x : T}
    {d : List T} (hd : c.deque_.Perm (x :: d)) :
    Inv { deque_ := d, set_ := c.set_.erase x } := by
  rw [inv_iff] at hc ⊢
  obtain ⟨hnd, hset⟩ := hc
  have hnd' := hd.nodup_iff.mp hnd
  obtain ⟨hx, hd'⟩ := List.nodup_cons.mp hnd'
  refine ⟨hd', ?_⟩
  show c.set_.erase x = d.toFinset
  rw [hset, List.toFinset_eq_of_perm _ _ hd, List.toFinset_cons,
    Finset.erase_insert (by simpa using hx)]

theorem inv_mk_default : Inv (mk_default : deque_of_unique T) := by
  rw [inv_iff]; simp [mk_default]

theorem inv_clear (c : deque_of_unique T) : Inv (clear c) := by
  rw [inv_iff]; simp [clear]

theorem inv_push_back {c : deque_of_unique T} (hc : Inv c) (v : T) :
    Inv (push_back c v).1 := by
  unfold push_back
  split
  · rename_i hv
    exact inv_of_perm_cons hc hv (List.perm_append_singleton v c.deque_)
  · exact hc

theorem inv_push_front {c : deque_of_unique T} (hc : Inv c) (v : T) :
    Inv (push_front c v).1 := by
  unfold push_front
  split
  · rename_i hv
    exact inv_of_perm_cons hc hv (List.Perm.refl _)
  · exact hc

theorem inv_insert {c : deque_of_unique T} (hc : Inv c) (pos : Nat) (v : T) :
    Inv (insert c pos v).1 := by
  unfold insert
  split
  · rename_i hv
    exact inv_of_perm_cons hc hv (deque_insert_perm _ _ _)
  · exact hc

theorem inv_emplace {c : deque_of_unique T} (hc : Inv c) (pos : Nat) (v : T) :
    Inv (emplace c pos v).1 := by
  unfold emplace
  split
  · rename_i hv
    exact inv_of_perm_cons hc hv (deque_insert_perm _ _ _)
  · exact hc

theorem inv_emplace_front {c : deque_of_unique T} (hc : Inv c) (v : T) :
    Inv (emplace_front c v).1 := by
  unfold emplace_front
  split
  · rename_i hv
    exact inv_of_perm_cons hc hv (List.Perm.refl _)
  · exact hc

theorem inv_emplace_back {c : deque_of_unique T} (hc : Inv c) (v : T) :
    Inv (emplace_back c v).1 := by
  unfold emplace_back
  split
  · rename_i hv
    exact inv_of_perm_cons hc hv (List.perm_append_singleton v c.deque_)
  · exact hc

theorem inv_pop_front {c : deque_of_unique T} (hc : Inv c) (key : T)
    (hkey : ∀ f, c.deque_.head? = some f → key = f) : Inv (pop_front c key) := by
  unfold pop_front
  split
  · exact hc
  · rename_i f rest heq
    have hk : key = f := hkey f (by rw [heq]; rfl)
    rw [hk]
    exact inv_of_cons_perm hc (heq ▸ List.Perm.refl _)

theorem inv_pop_back {c : deque_of_unique T} (hc : Inv c) (key : T)
    (hkey : ∀ f, c.deque_.getLast? = some f → key = f) : Inv (pop_back c key) := by
  unfold pop_back
  split
  · exact hc
  · rename_i f heq
    have hk : key = f := hkey f heq
    rw [hk]
    refine inv_of_cons_perm hc ?_
    have h := List.dropLast_append_getLast? f heq
    conv_lhs => rw [← h]
    exact List.perm_append_singleton f _

theorem inv_erase {c : deque_of_unique T} (hc : Inv c) (pos : Nat) :
    Inv (erase c pos).1 := by
  unfold erase
  split
  · exact hc
  · split
    · rename_i x hx
      exact inv_of_cons_perm hc (deque_erase_perm _ _ _ hx)
    · exact hc

theorem inv_erase_range {c : deque_of_unique T} (hc : Inv c) (first last : Nat)
    (h : first ≤ last) : Inv (erase_range c first last).1 := by
  unfold erase_range
  split
  · exact hc
  · rw [inv_iff] at hc ⊢
    obtain ⟨hnd, hset⟩ := hc
    have hsplit := deque_erase_range_split c.deque_ first last h
    rw [hsplit] at hnd
    have hperm : (c.deque_.take first ++ ((c.deque_.take last).drop first ++ c.deque_.drop last)).Perm
        ((c.deque_.take last).drop first ++ (c.deque_.take first ++ c.deque_.drop last)) := by
      rw [← List.append_assoc, ← List.append_assoc]
      exact List.Perm.append_right _ List.perm_append_comm
    have hnd2 := hperm.nodup_iff.mp hnd
    rw [List.nodup_append] at hnd2
    obtain ⟨_, hkeep, hdisj⟩ := hnd2
    refine ⟨hkeep, ?_⟩
    show List.foldl (fun s x => s.erase x) c.set_ ((c.deque_.take last).drop first)
      = (deque_erase_range c.deque_ first last).toFinset
    have hts : c.deque_.toFinset = (c.deque_.take first ++
        ((c.deque_.take last).drop first ++ c.deque_.drop last)).toFinset :=
      congrArg List.toFinset hsplit
    rw [foldl_erase_eq, hset, hts]
    unfold deque_erase_range
    ext y
    simp only [Finset.mem_sdiff, List.mem_toFinset, List.mem_append]
    constructor
    · rintro ⟨h1 | h1 | h1, h2⟩
      · exact Or.inl h1
      · exact absurd h1 h2
      · exact Or.inr h1
    · intro hy
      refine ⟨by tauto, fun hmid => ?_⟩
      exact hdisj hmid (List.mem_append.mpr hy)

theorem inv_insert_range_step {st : insert_loop T} (h : Inv st.self) (x : T) :
    Inv (insert_range_step st x).self := by
  unfold insert_range_step
  split
  · rename_i hv
    exact inv_of_perm_cons h hv (deque_insert_perm _ _ _)
  · exact h

theorem inv_foldl_insert_range_step (xs : List T) {st : insert_loop T} (h : Inv st.self) :
    Inv (xs.foldl insert_range_step st).self := by
  induction xs generalizing st with
  | nil => exact h
  | cons x xs ih => exact ih (inv_insert_range_step h x)

theorem inv_insert_range {c : deque_of_unique T} (hc : Inv c) (pos : Nat) (xs : List T) :
    Inv (insert_range c pos xs).1 :=
  inv_foldl_insert_range_step xs hc

theorem inv__push_back (xs : List T) {c : deque_of_unique T} (hc : Inv c) :
    Inv (_push_back c xs) := by
  unfold _push_back
  induction xs generalizing c with
  | nil => exact hc
  | cons x xs ih => exact ih (inv_push_back hc x)

theorem inv_mk_range (xs : List T) : Inv (mk_range xs) :=
  inv__push_back xs inv_mk_default

/-! ## What `_push_back` builds -/

theorem _push_back_cons (c : deque_of_unique T) (x : T) (xs : List T) :
    _push_back c (x :: xs) = _push_back (push_back c x).1 xs := rfl

theorem _push_back_set (xs : List T) (c : deque_of_unique T) :
    (_push_back c xs).set_ = c.set_ ∪ xs.toFinset := by
  induction xs generalizing c with
  | nil => simp [_push_back]
  | cons x xs ih =>
    rw [_push_back_cons, ih]
    unfold push_back
    split
    · ext y; simp only [Finset.mem_union, Finset.mem_insert, List.toFinset_cons]; tauto
    · rename_i hx
      have hx' : x ∈ c.set_ := not_not.mp hx
      ext y
      simp only [Finset.mem_union, Finset.mem_insert, List.toFinset_cons]
      constructor
      · tauto
      · rintro (h | h | h)
        · exact Or.inl h
        · exact Or.inl (h ▸ hx')
        · exact Or.inr h

theorem _push_back_deque (xs : List T) {c : deque_of_unique T} (hc : Inv c) :
    (_push_back c xs).deque_
      = c.deque_ ++ (keep_first_occurrence xs).filter (fun y => y ∉ c.deque_) := by
  induction xs generalizing c with
  | nil => simp [_push_back, keep_first_occurrence]
  | cons x xs ih =>
    rw [_push_back_cons, ih (inv_push_back hc x)]
    have hmem : x ∈ c.deque_ ↔ x ∈ c.set_ := hc.2.1 x
    unfold push_back
    split
    · rename_i hx
      have hx' : x ∉ c.deque_ := fun h => hx (hmem.mp h)
      simp only [keep_first_occurrence, List.filter_cons, hx', not_false_eq_true,
        decide_True, if_true, List.append_assoc, List.singleton_append, List.filter_filter]
      congr 2
      apply List.filter_congr
      intro y _
      simp only [List.mem_append, List.mem_singleton, not_or, Bool.decide_and]
    · rename_i hx
      have hx' : x ∈ c.deque_ := hmem.mpr (not_not.mp hx)
      simp only [keep_first_occurrence, List.filter_cons, hx', not_true_eq_false,
        decide_False, List.filter_filter]
      congr 1
      apply List.filter_congr
      intro y _
      by_cases hy : y ∈ c.deque_
      · simp [hy]
      · have : y ≠ x := fun h => hy (h ▸ hx')
        simp [hy, this]

theorem mk_range_deque (xs : List T) : (mk_range xs).deque_ = keep_first_occurrence xs := by
  unfold mk_range
  rw [_push_back_deque xs inv_mk_default]
  simp [mk_default]

theorem mk_range_set (xs : List T) : (mk_range xs).set_ = xs.toFinset := by
  unfold mk_range
  rw [_push_back_set]
  simp [mk_default]

/-! ## The invariants after `pop_front` and `pop_back` -/

/-- C2, evaluated on the code: the container constructed from three 32-character
strings, then `pop_front()`. The read of the destroyed front element yields the
bytes of a freed buffer, which are no key of the Membership Index: nothing is
erased, and the first string is in the Membership Index and not in the Sequence
Store. -/
theorem membership_broken_after_pop_front :
    Reachable (pop_front (mk_range [long_a, long_b, long_c]) freed_bytes) ∧
    long_a ∈ (pop_front (mk_range [long_a, long_b, long_c]) freed_bytes).set_ ∧
    long_a ∉ (pop_front (mk_range [long_a, long_b, long_c]) freed_bytes).deque_ :=
  ⟨Reachable.pop_front freed_bytes (Reachable.mk_range [long_a, long_b, long_c]),
   by decide, by decide⟩

/-- C3, evaluated on the code: the container constructed from three 32-character
strings, then `pop_front()`, the read of the destroyed front element yielding the
bytes of a freed buffer: `size()` is 2 and the Membership Index holds 3 elements. -/
theorem size_mismatch_after_pop_front :
    Reachable (pop_front (mk_range [long_a, long_b, long_c]) freed_bytes) ∧
    (pop_front (mk_range [long_a, long_b, long_c]) freed_bytes).size = 2 ∧
    (pop_front (mk_range [long_a, long_b, long_c]) freed_bytes).set_.card = 3 :=
  ⟨Reachable.pop_front freed_bytes (Reachable.mk_range [long_a, long_b, long_c]),
   by decide, by decide⟩

/-! ## Construction -/

/-- C4 (dedup-on-construct): constructing from a list `xs` (iterator range or
initializer list) gives the Sequence Store `xs` with every element after its first
occurrence removed, in the original order, and the Membership Index of exactly the
distinct elements of `xs`; `[1,2,2,3,3,4]` gives `[1,2,3,4]`. -/
theorem mk_range_dedup (xs : List T) :
    (mk_range xs).deque_ = keep_first_occurrence xs ∧
    (mk_range xs).set_ = xs.toFinset ∧
    (∀ x, x ∈ (mk_range xs).set_ ↔ x ∈ xs) ∧
    (mk_range [1, 2, 2, 3, 3, 4]).deque_ = [1, 2, 3, 4] ∧
    (mk_range [1, 2, 2, 3, 3, 4]).set_ = {1, 2, 3, 4} := by
  refine ⟨mk_range_deque xs, mk_range_set xs, ?_, by decide, by decide⟩
  intro x
  rw [mk_range_set, List.mem_toFinset]

/-! ## End operations -/

/-- C5: on a container satisfying the invariants, `push_back(v)` returns true if and
only if `v` was not a member; when it returns true the Sequence Store is the old
sequence with `v` appended as the last element, the Membership Index is the old
index plus `v`, and `size()` has grown by exactly 1. -/
theorem push_back_new (c : deque_of_unique T) (hc : Inv c) (v : T) :
    ((push_back c v).2 = true ↔ v ∉ c.deque_) ∧
    ((push_back c v).2 = true ↔ v ∉ c.set_) ∧
    ((push_back c v).2 = true →
      (push_back c v).1.deque_ = c.deque_ ++ [v] ∧
      (push_back c v).1.deque_.getLast? = some v ∧
      (push_back c v).1.set_ = Insert.insert v c.set_ ∧
      (push_back c v).1.size = c.size + 1) := by
  have hmem : v ∈ c.deque_ ↔ v ∈ c.set_ := hc.2.1 v
  by_cases hv : v ∈ c.set_
  · have hd : v ∈ c.deque_ := hmem.mpr hv
    simp [push_back, hv, hd]
  · have hd : v ∉ c.deque_ := fun h => hv (hmem.mp h)
    simp [push_back, hv, hd, size]

/-- Witness of C5: `push_back(4)` on the container constructed from `[1,2,3]`. -/
theorem push_back_new_witness :
    Inv (mk_range [1, 2, 3]) ∧
    (push_back (mk_range [1, 2, 3]) 4).1.deque_ = (mk_range [1, 2, 3]).deque_ ++ [4] :=
  ⟨(inv_iff _).mpr (by decide),
   ((push_back_new (mk_range [1, 2, 3]) ((inv_iff _).mpr (by decide)) 4).2.2 (by decide)).1⟩

/-- C6: on a container that already contains `x` (the Membership Index holds `x`;
under the invariants that is the same as the Sequence Store holding `x`),
`push_back(x)` returns false and leaves both stores, hence size, order and
contents, exactly as they were. -/
theorem push_back_duplicate (c : deque_of_unique T) (x : T) :
    (x ∈ c.set_ →
      push_back c x = (c, false) ∧ (push_back c x).1.size = c.size) ∧
    (Inv c → x ∈ c.deque_ →
      push_back c x = (c, false) ∧ (push_back c x).1.size = c.size) := by
  have key : x ∈ c.set_ → push_back c x = (c, false) ∧ (push_back c x).1.size = c.size := by
    intro hx
    simp [push_back, hx]
  exact ⟨key, fun hc hx => key ((hc.2.1 x).mp hx)⟩

/-- Witness of C6: `push_back(2)` on the container constructed from `[1,2,3]`. -/
theorem push_back_duplicate_witness :
    (2 ∈ (mk_range [1, 2, 3]).set_ ∧ Inv (mk_range [1, 2, 3]) ∧ 2 ∈ (mk_range [1, 2, 3]).deque_)
    ∧ push_back (mk_range [1, 2, 3]) 2 = (mk_range [1, 2, 3], false) :=
  ⟨⟨by decide, (inv_iff _).mpr (by decide), by decide⟩,
   ((push_back_duplicate (mk_range [1, 2, 3]) 2).2 ((inv_iff _).mpr (by decide))
      (by decide)).1⟩

/-- C7: on a container satisfying the invariants, `push_front(v)` returns true
exactly when `v` was not a member; then the Sequence Store is `v` followed by the old
sequence and the Membership Index is the old index plus `v`. When `v` was a member
it returns false and both stores are unchanged. -/
theorem push_front_spec (c : deque_of_unique T) (hc : Inv c) (v : T) :
    ((push_front c v).2 = true ↔ v ∉ c.deque_) ∧
    ((push_front c v).2 = true ↔ v ∉ c.set_) ∧
    ((push_front c v).2 = true →
      (push_front c v).1.deque_ = v :: c.deque_ ∧
      (push_front c v).1.set_ = Insert.insert v c.set_) ∧
    (v ∈ c.deque_ → push_front c v = (c, false)) ∧
    (v ∈ c.set_ → push_front c v = (c, false)) := by
  have hmem : v ∈ c.deque_ ↔ v ∈ c.set_ := hc.2.1 v
  by_cases hv : v ∈ c.set_
  · have hd : v ∈ c.deque_ := hmem.mpr hv
    simp [push_front, hv, hd]
  · have hd : v ∉ c.deque_ := fun h => hv (hmem.mp h)
    simp [push_front, hv, hd]

/-- Witness of C7: `push_front(0)` on the container constructed from `[1,2,3]`. -/
theorem push_front_spec_witness :
    Inv (mk_range [1, 2, 3]) ∧
    (push_front (mk_range [1, 2, 3]) 0).1.deque_ = 0 :: (mk_range [1, 2, 3]).deque_ :=
  ⟨(inv_iff _).mpr (by decide),
   ((push_front_spec (mk_range [1, 2, 3]) ((inv_iff _).mpr (by decide)) 0).2.2.1
      (by decide)).1⟩

/-- C8, evaluated on the code: `pop_front()` on the container constructed from three
32-character strings, the read of the destroyed front element yielding the bytes of
a freed buffer. The Sequence Store loses its first element; the Membership Index
loses nothing and still holds that element. -/
theorem pop_front_keeps_key :
    (pop_front (mk_range [long_a, long_b, long_c]) freed_bytes).deque_ = [long_b, long_c] ∧
    (pop_front (mk_range [long_a, long_b, long_c]) freed_bytes).set_
      = (mk_range [long_a, long_b, long_c]).set_ ∧
    long_a ∈ (pop_front (mk_range [long_a, long_b, long_c]) freed_bytes).set_ :=
  ⟨by decide, by decide, by decide⟩

/-- C9, evaluated on the code: `pop_back()` on the container constructed from three
32-character strings, the read of the destroyed back element yielding the bytes of
a freed buffer. The Sequence Store loses its last element; the Membership Index
loses nothing and still holds that element. -/
theorem pop_back_keeps_key :
    (pop_back (mk_range [long_a, long_b, long_c]) freed_bytes).deque_ = [long_a, long_b] ∧
    (pop_back (mk_range [long_a, long_b, long_c]) freed_bytes).set_
      = (mk_range [long_a, long_b, long_c]).set_ ∧
    long_c ∈ (pop_back (mk_range [long_a, long_b, long_c]) freed_bytes).set_ :=
  ⟨by decide, by decide, by decide⟩

/-- C10: on an empty container `pop_front()`, `pop_back()` and `erase(cbegin())`
change nothing and `erase` returns the end iterator; under the invariants both
stores are empty before and so after. The guarded body of the two pops is skipped,
so nothing is read through a reference: this holds for every `key`. The three are
total functions: there is no failure to report. -/
theorem empty_noop (c : deque_of_unique T) (he : c.empty = true) (key : T) :
    pop_front c key = c ∧ pop_back c key = c ∧
    erase c c.cbegin = (c, c.cend) ∧
    (erase c c.cbegin).2 = (erase c c.cbegin).1.cend ∧
    (Inv c →
      (pop_front c key).deque_ = [] ∧ (pop_front c key).set_ = ∅ ∧
      (pop_back c key).deque_ = [] ∧ (pop_back c key).set_ = ∅ ∧
      (erase c c.cbegin).1.deque_ = [] ∧ (erase c c.cbegin).1.set_ = ∅) := by
  have hd : c.deque_ = [] := by simpa [empty] using he
  have h1 : pop_front c key = c := by simp [pop_front, hd]
  have h2 : pop_back c key = c := by simp [pop_back, hd]
  have h3 : erase c c.cbegin = (c, c.cend) := by simp [erase, hd, cend]
  refine ⟨h1, h2, h3, by rw [h3], ?_⟩
  intro hc
  have hs : c.set_ = ∅ := by
    rw [((inv_iff c).mp hc).2, hd]
    rfl
  rw [h1, h2, h3]
  exact ⟨hd, hs, hd, hs, hd, hs⟩

/-- Witness of C10: the three calls on the default-constructed container. -/
theorem empty_noop_witness :
    ((mk_default : deque_of_unique Nat).empty = true ∧ Inv (mk_default : deque_of_unique Nat)) ∧
    (pop_front (mk_default : deque_of_unique Nat) 7).set_ = ∅ ∧
    pop_front (mk_default : deque_of_unique Nat) 7 = mk_default ∧
    pop_back (mk_default : deque_of_unique Nat) 7 = mk_default ∧
    erase (mk_default : deque_of_unique Nat) (cbegin (mk_default : deque_of_unique Nat))
      = (mk_default, cend (mk_default : deque_of_unique Nat)) :=
  ⟨⟨by decide, (inv_iff _).mpr (by decide)⟩,
   ((empty_noop (mk_default : deque_of_unique Nat) (by decide) 7).2.2.2.2
      ((inv_iff _).mpr (by decide))).2.1,
   (empty_noop (mk_default : deque_of_unique Nat) (by decide) 7).1,
   (empty_noop (mk_default : deque_of_unique Nat) (by decide) 7).2.1,
   (empty_noop (mk_default : deque_of_unique Nat) (by decide) 7).2.2.1⟩

/-! ## Positions after `std::deque::insert` and `std::deque::erase` -/

theorem deque_insert_length {T : Type} (d : List T) (pos : Nat) (v : T) :
    (deque_insert d pos v).length = d.length + 1 := by
  rw [(deque_insert_perm d pos v).length_eq]
  rfl

theorem deque_insert_getElem?_lt {T : Type} (d : List T) (pos : Nat) (v : T) (i : Nat)
    (hp : pos ≤ d.length) (hi : i < pos) : (deque_insert d pos v)[i]? = d[i]? := by
  unfold deque_insert
  rw [List.getElem?_append_left (by rw [List.length_take]; omega),
    List.getElem?_take_of_lt hi]

theorem deque_insert_getElem?_self {T : Type} (d : List T) (pos : Nat) (v : T)
    (hp : pos ≤ d.length) : (deque_insert d pos v)[pos]? = some v := by
  unfold deque_insert
  have hlen : (d.take pos).length = pos := by rw [List.length_take]; omega
  rw [List.getElem?_append_right (by omega), hlen, Nat.sub_self]
  exact List.getElem?_cons_zero

theorem deque_insert_getElem?_ge {T : Type} (d : List T) (pos : Nat) (v : T) (i : Nat)
    (hp : pos ≤ d.length) (hi : pos ≤ i) : (deque_insert d pos v)[i + 1]? = d[i]? := by
  unfold deque_insert
  have hlen : (d.take pos).length = pos := by rw [List.length_take]; omega
  rw [List.getElem?_append_right (by omega), hlen]
  have h1 : i + 1 - pos = (i - pos) + 1 := by omega
  rw [h1, List.getElem?_cons_succ, List.getElem?_drop]
  congr 1
  omega

theorem deque_erase_getElem?_lt {T : Type} (d : List T) (pos : Nat) (i : Nat)
    (hp : pos < d.length) (hi : i < pos) : (deque_erase d pos)[i]? = d[i]? := by
  unfold deque_erase
  rw [List.getElem?_append_left (by rw [List.length_take]; omega),
    List.getElem?_take_of_lt hi]

theorem deque_erase_getElem?_ge {T : Type} (d : List T) (pos : Nat) (i : Nat)
    (hp : pos < d.length) (hi : pos ≤ i) : (deque_erase d pos)[i]? = d[i + 1]? := by
  unfold deque_erase
  have hlen : (d.take pos).length = pos := by rw [List.length_take]; omega
  rw [List.getElem?_append_right (by omega), hlen, List.getElem?_drop]
  congr 1
  omega

theorem deque_erase_length {T : Type} (d : List T) (pos : Nat) (hp : pos < d.length) :
    (deque_erase d pos).length + 1 = d.length := by
  unfold deque_erase
  rw [List.length_append, List.length_take, List.length_drop]
  omega

/-! ## What the loop of the range insert builds -/

theorem keep_first_occurrence_filter (p : T → Bool) (xs : List T) :
    keep_first_occurrence (xs.filter p) = (keep_first_occurrence xs).filter p := by
  induction xs with
  | nil => rfl
  | cons x xs ih =>
    by_cases hx : p x = true
    · rw [List.filter_cons_of_pos hx]
      show x :: (keep_first_occurrence (xs.filter p)).filter (fun y => y ≠ x)
        = List.filter p (x :: (keep_first_occurrence xs).filter (fun y => y ≠ x))
      rw [List.filter_cons_of_pos hx, ih, List.filter_filter, List.filter_filter]
      congr 1
      apply List.filter_congr
      intro y _
      exact Bool.and_comm _ _
    · rw [List.filter_cons_of_neg hx]
      show keep_first_occurrence (xs.filter p)
        = List.filter p (x :: (keep_first_occurrence xs).filter (fun y => y ≠ x))
      rw [List.filter_cons_of_neg hx, ih, List.filter_filter]
      apply List.filter_congr
      intro y _
      by_cases hy : p y = true
      · have hne : y ≠ x := fun h => hx (h ▸ hy)
        simp [hy, hne]
      · simp [hy]

theorem mem_keep_first_occurrence (xs : List T) (y : T) :
    y ∈ keep_first_occurrence xs ↔ y ∈ xs := by
  rw [← mk_range_deque, (inv_mk_range xs).2.1 y, mk_range_set, List.mem_toFinset]

theorem nodup_keep_first_occurrence (xs : List T) : (keep_first_occurrence xs).Nodup := by
  rw [← mk_range_deque]
  exact (inv_mk_range xs).2.2

theorem mem_accepted_elements (s xs : List T) (y : T) :
    y ∈ accepted_elements s xs ↔ y ∈ xs ∧ y ∉ s := by
  unfold accepted_elements
  rw [mem_keep_first_occurrence, List.mem_filter]
  simp

theorem accepted_elements_cons_old (s xs : List T) (x : T) (hx : x ∈ s) :
    accepted_elements s (x :: xs) = accepted_elements s xs := by
  unfold accepted_elements
  simp [List.filter_cons, hx]

theorem accepted_elements_cons_new (s s' xs : List T) (x : T) (hx : x ∉ s)
    (hs : ∀ y, y ∈ s' ↔ y = x ∨ y ∈ s) :
    accepted_elements s (x :: xs) = x :: accepted_elements s' xs := by
  unfold accepted_elements
  simp only [List.filter_cons, hx, not_false_eq_true, decide_True, if_true,
    keep_first_occurrence]
  rw [← keep_first_occurrence_filter, List.filter_filter]
  congr 2
  apply List.filter_congr
  intro y _
  have hy : y ∉ s' ↔ (y ≠ x ∧ y ∉ s) := by
    rw [hs y]
    exact not_or
  simp only [hy, Bool.decide_and]

theorem foldl_insert_range_step (xs : List T) :
    ∀ (st : insert_loop T) (L R : List T), st.self.deque_ = L ++ R →
      st.temp_pos = L.length → (∀ y, y ∈ st.self.deque_ ↔ y ∈ st.self.set_) →
      (xs.foldl insert_range_step st).self.deque_
        = L ++ accepted_elements st.self.deque_ xs ++ R ∧
      (xs.foldl insert_range_step st).self.set_
        = st.self.set_ ∪ (accepted_elements st.self.deque_ xs).toFinset ∧
      (xs.foldl insert_range_step st).any_inserted
        = (st.any_inserted || !(accepted_elements st.self.deque_ xs).isEmpty) ∧
      (xs.foldl insert_range_step st).first_inserted_index
        = (if st.any_inserted || (accepted_elements st.self.deque_ xs).isEmpty
           then st.first_inserted_index else st.temp_pos) := by
  induction xs with
  | nil =>
    intro st L R hd _ _
    simp [accepted_elements, keep_first_occurrence, hd]
  | cons x xs ih =>
    intro st L R hd hpos hmem
    rw [List.foldl_cons]
    by_cases hx : x ∈ st.self.set_
    · have hstep : insert_range_step st x = st := by simp [insert_range_step, hx]
      rw [hstep, accepted_elements_cons_old _ _ _ ((hmem x).mpr hx)]
      exact ih st L R hd hpos hmem
    · have hxd : x ∉ st.self.deque_ := fun h => hx ((hmem x).mp h)
      have hstep : insert_range_step st x =
          { self := { deque_ := deque_insert st.self.deque_ st.temp_pos x,
                      set_ := Insert.insert x st.self.set_ },
            temp_pos := st.temp_pos + 1,
            first_inserted_index :=
              if st.any_inserted then st.first_inserted_index else st.temp_pos,
            any_inserted := true } := by
        simp [insert_range_step, hx]
      have hdq : deque_insert st.self.deque_ st.temp_pos x = (L ++ [x]) ++ R := by
        unfold deque_insert
        rw [hd, hpos, List.take_left, List.drop_left]
        simp
      have hmem' : ∀ y, y ∈ (insert_range_step st x).self.deque_
          ↔ y ∈ (insert_range_step st x).self.set_ := by
        intro y
        rw [hstep]
        show y ∈ deque_insert st.self.deque_ st.temp_pos x ↔ y ∈ Insert.insert x st.self.set_
        rw [(deque_insert_perm _ _ _).mem_iff, List.mem_cons, Finset.mem_insert, hmem y]
      have hacc : accepted_elements st.self.deque_ (x :: xs)
          = x :: accepted_elements (insert_range_step st x).self.deque_ xs := by
        apply accepted_elements_cons_new _ _ _ _ hxd
        intro y
        rw [hstep]
        show y ∈ deque_insert st.self.deque_ st.temp_pos x ↔ _
        rw [(deque_insert_perm _ _ _).mem_iff, List.mem_cons]
      have hd' : (insert_range_step st x).self.deque_ = (L ++ [x]) ++ R := by
        rw [hstep]; exact hdq
      have hpos' : (insert_range_step st x).temp_pos = (L ++ [x]).length := by
        rw [hstep]; simp [hpos]
      obtain ⟨h1, h2, h3, h4⟩ := ih (insert_range_step st x) (L ++ [x]) R hd' hpos' hmem'
      rw [h1, h2, h3, h4, hacc]
      refine ⟨by simp, ?_, ?_, ?_⟩
      · rw [hstep]
        ext y
        simp only [Finset.mem_union, Finset.mem_insert, List.toFinset_cons]
        tauto
      · rw [hstep]; simp
      · rw [hstep]; simp

theorem insert_range_loop_spec (c : deque_of_unique T) (hc : Inv c) (p : Nat)
    (hp : p ≤ c.size) (xs : List T) :
    (insert_range_loop c p xs).self.deque_
      = c.deque_.take p ++ accepted_elements c.deque_ xs ++ c.deque_.drop p ∧
    (insert_range_loop c p xs).self.set_
      = c.set_ ∪ (accepted_elements c.deque_ xs).toFinset ∧
    (insert_range_loop c p xs).any_inserted = !(accepted_elements c.deque_ xs).isEmpty ∧
    (insert_range_loop c p xs).first_inserted_index = p := by
  have h := foldl_insert_range_step xs
    { self := c, temp_pos := p, first_inserted_index := p, any_inserted := false }
    (c.deque_.take p) (c.deque_.drop p) (List.take_append_drop p c.deque_).symm
    (by rw [List.length_take]; exact (Nat.min_eq_left hp).symm) hc.2.1
  obtain ⟨h1, h2, h3, h4⟩ := h
  refine ⟨h1, h2, by simpa using h3, ?_⟩
  unfold insert_range_loop
  rw [h4]
  simp

theorem eq_of_stores {a b : deque_of_unique T} (hd : a.deque_ = b.deque_)
    (hs : a.set_ = b.set_) : a = b := by
  cases a; cases b
  simp only at hd hs
  rw [hd, hs]

theorem keep_first_occurrence_sublist (xs : List T) :
    (keep_first_occurrence xs).Sublist xs := by
  induction xs with
  | nil => exact List.Sublist.slnil
  | cons x xs ih =>
    exact List.Sublist.cons₂ x ((List.filter_sublist _).trans ih)

theorem head?_keep_first_occurrence (xs : List T) :
    (keep_first_occurrence xs).head? = xs.head? := by
  cases xs <;> rfl

theorem head?_filter_eq_find? {α : Type} (q : α → Bool) (xs : List α) :
    (xs.filter q).head? = xs.find? q := by
  induction xs with
  | nil => rfl
  | cons x xs ih =>
    by_cases hx : q x = true
    · rw [List.filter_cons_of_pos hx, List.find?_cons_of_pos _ hx]
      rfl
    · rw [List.filter_cons_of_neg hx, List.find?_cons_of_neg _ hx, ih]

/-! ## Element access -/

/-- C11: for every container and every index `i`, `at(i)` fails with the
out-of-range condition if and only if `i >= size()`, in particular for every `i` on
an empty container; when `i < size()` it returns the element at position `i` of the
Sequence Store. The member yields a value only: no store changes. -/
theorem at_spec (c : deque_of_unique T) (i : Nat) :
    (at_ c i = Except.error access_error.out_of_range ↔ c.size ≤ i) ∧
    (i < c.size → ∃ x, c.deque_[i]? = some x ∧ at_ c i = Except.ok x) ∧
    (∀ x, at_ c i = Except.ok x ↔ c.deque_[i]? = some x) ∧
    (c.empty = true → at_ c i = Except.error access_error.out_of_range) := by
  have hok : ∀ x, at_ c i = Except.ok x ↔ c.deque_[i]? = some x := by
    intro x
    unfold at_
    by_cases h : i < c.deque_.length
    · rw [dif_pos h, List.getElem?_eq_getElem h]
      constructor
      · intro hx
        injection hx with hx
        exact congrArg some hx
      · intro hx
        injection hx with hx
        exact congrArg Except.ok hx
    · rw [dif_neg h, List.getElem?_eq_none (Nat.le_of_not_lt h)]
      constructor <;> intro hx <;> cases hx
  have herr : at_ c i = Except.error access_error.out_of_range ↔ c.size ≤ i := by
    unfold at_ size
    by_cases h : i < c.deque_.length
    · rw [dif_pos h]
      constructor
      · intro hx; cases hx
      · intro hx; omega
    · rw [dif_neg h]
      exact ⟨fun _ => Nat.le_of_not_lt h, fun _ => rfl⟩
  refine ⟨herr, ?_, hok, ?_⟩
  · intro hi
    have hi' : i < c.deque_.length := hi
    exact ⟨c.deque_.get ⟨i, hi'⟩, List.getElem?_eq_getElem hi', by unfold at_; rw [dif_pos hi']⟩
  · intro he
    have hd : c.deque_ = [] := by simpa [empty] using he
    exact herr.mpr (by simp [size, hd])

/-- Witness of C11: `at(1)` on the container constructed from `[1,2,3,4]`. -/
theorem at_spec_witness :
    1 < (mk_range [1, 2, 3, 4]).size ∧
    ∃ x, (mk_range [1, 2, 3, 4]).deque_[1]? = some x ∧ at_ (mk_range [1, 2, 3, 4]) 1 = Except.ok x :=
  ⟨by decide, (at_spec (mk_range [1, 2, 3, 4]) 1).2.1 (by decide)⟩

/-! ## Positional insert -/

/-- C12: on a container satisfying the invariants, for `0 <= p <= size()` and `v` not
a member, `insert(p, v)` reports success; the new Sequence Store is the old one with
`v` at index `p` (positions before `p` unchanged, positions from `p` on shifted by
one); the Membership Index gains `v`; the returned iterator is at index `p` and
refers to `v`. -/
theorem insert_new (c : deque_of_unique T) (hc : Inv c) (p : Nat) (hp : p ≤ c.size)
    (v : T) (hv : v ∉ c.deque_) :
    (insert c p v).2.2 = true ∧
    (insert c p v).2.1 = p ∧
    (insert c p v).1.deque_ = c.deque_.take p ++ v :: c.deque_.drop p ∧
    (∀ i, i < p → (insert c p v).1.deque_[i]? = c.deque_[i]?) ∧
    (insert c p v).1.deque_[p]? = some v ∧
    (∀ i, p ≤ i → (insert c p v).1.deque_[i + 1]? = c.deque_[i]?) ∧
    (insert c p v).1.size = c.size + 1 ∧
    (insert c p v).1.set_ = Insert.insert v c.set_ ∧
    (insert c p v).1.deque_[(insert c p v).2.1]? = some v := by
  have hs : v ∉ c.set_ := fun h => hv ((hc.2.1 v).mpr h)
  have hins : insert c p v =
      ({ deque_ := deque_insert c.deque_ p v, set_ := Insert.insert v c.set_ }, p, true) := by
    simp [insert, hs]
  rw [hins]
  exact ⟨rfl, rfl, rfl, fun i hi => deque_insert_getElem?_lt _ _ _ _ hp hi,
    deque_insert_getElem?_self _ _ _ hp, fun i hi => deque_insert_getElem?_ge _ _ _ _ hp hi,
    deque_insert_length _ _ _, rfl, deque_insert_getElem?_self _ _ _ hp⟩

/-- Witness of C12: `insert(cbegin() + 1, 9)` on the container constructed from
`[1,2,3]`. -/
theorem insert_new_witness :
    (Inv (mk_range [1, 2, 3]) ∧ 1 ≤ (mk_range [1, 2, 3]).size ∧ 9 ∉ (mk_range [1, 2, 3]).deque_) ∧
    (insert (mk_range [1, 2, 3]) 1 9).2.2 = true ∧
    (insert (mk_range [1, 2, 3]) 1 9).1.deque_[1]? = some 9 :=
  ⟨⟨(inv_iff _).mpr (by decide), by decide, by decide⟩,
   (insert_new (mk_range [1, 2, 3]) ((inv_iff _).mpr (by decide)) 1 (by decide) 9
      (by decide)).1,
   (insert_new (mk_range [1, 2, 3]) ((inv_iff _).mpr (by decide)) 1 (by decide) 9
      (by decide)).2.2.2.2.1⟩

/-- C13: for every position `p` and every `v` that is already a member (the
Membership Index holds `v`; under the invariants that is the same as the Sequence
Store holding `v`), `insert(p, v)` returns `(p, false)` and leaves both stores
unchanged. -/
theorem insert_duplicate (c : deque_of_unique T) (p : Nat) (v : T) :
    (v ∈ c.set_ → insert c p v = (c, p, false)) ∧
    (Inv c → v ∈ c.deque_ → insert c p v = (c, p, false)) := by
  have key : v ∈ c.set_ → insert c p v = (c, p, false) := by
    intro hv
    simp [insert, hv]
  exact ⟨key, fun hc hv => key ((hc.2.1 v).mp hv)⟩

/-- Witness of C13: `insert(cend(), 1)` on the container constructed from `[1,2]`. -/
theorem insert_duplicate_witness :
    (1 ∈ (mk_range [1, 2]).set_ ∧ Inv (mk_range [1, 2]) ∧ 1 ∈ (mk_range [1, 2]).deque_) ∧
    insert (mk_range [1, 2]) (cend (mk_range [1, 2])) 1
      = (mk_range [1, 2], cend (mk_range [1, 2]), false) ∧
    insert (mk_range [1, 2]) 2 1 = (mk_range [1, 2], 2, false) :=
  ⟨⟨by decide, (inv_iff _).mpr (by decide), by decide⟩,
   (insert_duplicate (mk_range [1, 2]) (cend (mk_range [1, 2])) 1).1 (by decide),
   (insert_duplicate (mk_range [1, 2]) 2 1).2 ((inv_iff _).mpr (by decide)) (by decide)⟩

/-! ## Range insert -/

/-- C14: on a container satisfying the invariants with sequence `s`, for
`0 <= p <= size()` and every input list `xs`, `insert(p, xs)` gives the Sequence
Store `(first p elements of s) ++ A ++ (remaining elements of s)` and the Membership
Index `old index ∪ A`, where `A` holds the elements of `xs` that are not members of
`s`, each once, at its first occurrence, in input order. -/
theorem insert_range_spec (c : deque_of_unique T) (hc : Inv c) (p : Nat) (hp : p ≤ c.size)
    (xs : List T) :
    (insert_range c p xs).1.deque_
      = c.deque_.take p ++ accepted_elements c.deque_ xs ++ c.deque_.drop p ∧
    (insert_range c p xs).1.set_ = c.set_ ∪ (accepted_elements c.deque_ xs).toFinset ∧
    (∀ y, y ∈ accepted_elements c.deque_ xs ↔ y ∈ xs ∧ y ∉ c.deque_) ∧
    (accepted_elements c.deque_ xs).Nodup ∧
    (accepted_elements c.deque_ xs).Sublist xs := by
  obtain ⟨h1, h2, _, _⟩ := insert_range_loop_spec c hc p hp xs
  exact ⟨h1, h2, mem_accepted_elements _ _, nodup_keep_first_occurrence _,
    (keep_first_occurrence_sublist _).trans (List.filter_sublist _)⟩

/-- Witness of C14: the range `[2,7,7,8,1,9]` inserted at offset 1 of the container
constructed from `[1,2,3]`. -/
theorem insert_range_spec_witness :
    (Inv (mk_range [1, 2, 3]) ∧ 1 ≤ (mk_range [1, 2, 3]).size) ∧
    (insert_range (mk_range [1, 2, 3]) 1 [2, 7, 7, 8, 1, 9]).1.deque_
      = (mk_range [1, 2, 3]).deque_.take 1
        ++ accepted_elements (mk_range [1, 2, 3]).deque_ [2, 7, 7, 8, 1, 9]
        ++ (mk_range [1, 2, 3]).deque_.drop 1 ∧
    (insert_range (mk_range [1, 2, 3]) 1 [2, 7, 7, 8, 1, 9]).1.deque_ = [1, 7, 8, 9, 2, 3] :=
  ⟨⟨(inv_iff _).mpr (by decide), by decide⟩,
   (insert_range_spec (mk_range [1, 2, 3]) ((inv_iff _).mpr (by decide)) 1 (by decide)
      [2, 7, 7, 8, 1, 9]).1,
   by decide⟩

/-- C15: on a container satisfying the invariants, for `0 <= p <= size()` and every
input list `xs`, whatever the interleaving of duplicates and new elements:
`insert(p, xs)` returns the iterator at offset `p`; when at least one element was
inserted that position holds the first newly inserted element, which is the first
element of `xs` that was not a member; when none was inserted the container is
unchanged. -/
theorem insert_range_returns (c : deque_of_unique T) (hc : Inv c) (p : Nat)
    (hp : p ≤ c.size) (xs : List T) :
    (insert_range c p xs).2 = p ∧
    (insert_range c p xs).1.size = c.size + (accepted_elements c.deque_ xs).length ∧
    (accepted_elements c.deque_ xs ≠ [] →
      (insert_range c p xs).1.deque_[(insert_range c p xs).2]?
        = (accepted_elements c.deque_ xs).head? ∧
      (accepted_elements c.deque_ xs).head? = xs.find? (fun x => x ∉ c.deque_)) ∧
    (accepted_elements c.deque_ xs = [] → insert_range c p xs = (c, p)) := by
  obtain ⟨h1, h2, h3, h4⟩ := insert_range_loop_spec c hc p hp xs
  have hret : (insert_range c p xs).2 = p := by
    show (if (insert_range_loop c p xs).any_inserted
      then (insert_range_loop c p xs).first_inserted_index else p) = p
    rw [h4]
    exact ite_self p
  have hdq : (insert_range c p xs).1.deque_
      = c.deque_.take p ++ accepted_elements c.deque_ xs ++ c.deque_.drop p := h1
  have hlen : (c.deque_.take p).length = p := by
    rw [List.length_take]
    exact Nat.min_eq_left hp
  refine ⟨hret, ?_, ?_, ?_⟩
  · show (insert_range c p xs).1.deque_.length = c.deque_.length + _
    rw [hdq, List.length_append, List.length_append, hlen, List.length_drop]
    have hp' : p ≤ c.deque_.length := hp
    omega
  · intro hne
    constructor
    · rw [hret, hdq, List.append_assoc, List.getElem?_append_right (by omega), hlen,
        Nat.sub_self, List.head?_eq_getElem?]
      cases hA : accepted_elements c.deque_ xs with
      | nil => exact absurd hA hne
      | cons a l =>
        rw [List.cons_append, List.getElem?_cons_zero, List.getElem?_cons_zero]
    · unfold accepted_elements
      rw [head?_keep_first_occurrence, head?_filter_eq_find?]
  · intro hnil
    have hst : (insert_range c p xs).1 = c := by
      apply eq_of_stores
      · rw [hdq, hnil, List.append_nil, List.take_append_drop]
      · show (insert_range_loop c p xs).self.set_ = c.set_
        rw [h2, hnil]
        simp
    exact Prod.ext hst hret

/-- Witness of C15: leading duplicates followed by new elements, `[2,1,7,2,8]`
inserted at offset 2 of the container constructed from `[1,2,3]`. -/
theorem insert_range_returns_witness :
    (Inv (mk_range [1, 2, 3]) ∧ 2 ≤ (mk_range [1, 2, 3]).size) ∧
    (insert_range (mk_range [1, 2, 3]) 2 [2, 1, 7, 2, 8]).2 = 2 ∧
    (insert_range (mk_range [1, 2, 3]) 2 [2, 1, 7, 2, 8]).1.deque_ = [1, 2, 7, 8, 3] :=
  ⟨⟨(inv_iff _).mpr (by decide), by decide⟩,
   (insert_range_returns (mk_range [1, 2, 3]) ((inv_iff _).mpr (by decide)) 2 (by decide)
      [2, 1, 7, 2, 8]).1,
   by decide⟩

/-- C16: inserting `xs` as a range at the front of an empty container gives exactly
the state that constructing a container from `xs` gives: the Sequence Store is `xs`
with later duplicates dropped, in input order, and the Membership Index holds the
elements of `xs`; `["good","morning","good"]` gives `["good","morning"]`. -/
theorem insert_range_empty_eq_mk_range (c : deque_of_unique T) (hc : Inv c)
    (he : c.empty = true) (xs : List T) :
    (insert_range c c.cbegin xs).1 = mk_range xs ∧
    (insert_range c c.cbegin xs).1.deque_ = keep_first_occurrence xs ∧
    (insert_range c c.cbegin xs).1.set_ = xs.toFinset ∧
    (insert_range (mk_default : deque_of_unique String) 0 ["good", "morning", "good"]).1.deque_
      = ["good", "morning"] ∧
    (insert_range (mk_default : deque_of_unique String) 0 ["good", "morning", "good"]).1
      = mk_range ["good", "morning", "good"] := by
  have hd : c.deque_ = [] := by simpa [empty] using he
  have hs : c.set_ = ∅ := by
    rw [((inv_iff c).mp hc).2, hd]
    rfl
  obtain ⟨h1, h2, _, _⟩ := insert_range_loop_spec c hc 0 (Nat.zero_le _) xs
  have hacc : accepted_elements ([] : List T) xs = keep_first_occurrence xs := by
    unfold accepted_elements
    congr 1
    simp
  have hdq : (insert_range c c.cbegin xs).1.deque_ = keep_first_occurrence xs := by
    show (insert_range_loop c 0 xs).self.deque_ = _
    rw [h1, hd, hacc]
    simp
  have hset : (insert_range c c.cbegin xs).1.set_ = xs.toFinset := by
    show (insert_range_loop c 0 xs).self.set_ = _
    rw [h2, hd, hacc, hs]
    ext y
    simp [mem_keep_first_occurrence]
  refine ⟨eq_of_stores ?_ ?_, hdq, hset, by decide, by decide⟩
  · rw [hdq, mk_range_deque]
  · rw [hset, mk_range_set]

/-- Witness of C16: the range `[3,1,3,2,1]` inserted at the front of a cleared
container. -/
theorem insert_range_empty_eq_mk_range_witness :
    (Inv (clear (mk_range [5, 6])) ∧ (clear (mk_range [5, 6])).empty = true) ∧
    (insert_range (clear (mk_range [5, 6])) (cbegin (clear (mk_range [5, 6]))) [3, 1, 3, 2, 1]).1
      = mk_range [3, 1, 3, 2, 1] :=
  ⟨⟨(inv_iff _).mpr (by decide), by decide⟩,
   (insert_range_empty_eq_mk_range (clear (mk_range [5, 6])) ((inv_iff _).mpr (by decide))
      (by decide) [3, 1, 3, 2, 1]).1⟩

/-! ## Emplace -/

/-- C17: on a container satisfying the invariants, for `0 <= p <= size()` and the
value `v` the arguments construct: when `v` is not a member, `emplace(p, args)`
returns `(p, true)`, the new Sequence Store is the old one with `v` at index `p`, and
the Membership Index gains `v`; when `v` is a member it returns `(p, false)` and the
state is unchanged. Either way the Sequence Store has no duplicate. -/
theorem emplace_spec (c : deque_of_unique T) (hc : Inv c) (p : Nat) (hp : p ≤ c.size)
    (v : T) :
    (v ∉ c.deque_ →
      (emplace c p v).2 = (p, true) ∧
      (emplace c p v).1.deque_ = c.deque_.take p ++ v :: c.deque_.drop p ∧
      (∀ i, i < p → (emplace c p v).1.deque_[i]? = c.deque_[i]?) ∧
      (emplace c p v).1.deque_[p]? = some v ∧
      (∀ i, p ≤ i → (emplace c p v).1.deque_[i + 1]? = c.deque_[i]?) ∧
      (emplace c p v).1.set_ = Insert.insert v c.set_) ∧
    (v ∈ c.deque_ → emplace c p v = (c, p, false)) ∧
    (emplace c p v).1.deque_.Nodup := by
  refine ⟨?_, ?_, (inv_emplace hc p v).2.2⟩
  · intro hv
    have hs : v ∉ c.set_ := fun h => hv ((hc.2.1 v).mpr h)
    have hem : emplace c p v =
        ({ deque_ := deque_insert c.deque_ p v, set_ := Insert.insert v c.set_ }, p, true) := by
      simp [emplace, hs]
    rw [hem]
    exact ⟨rfl, rfl, fun i hi => deque_insert_getElem?_lt _ _ _ _ hp hi,
      deque_insert_getElem?_self _ _ _ hp,
      fun i hi => deque_insert_getElem?_ge _ _ _ _ hp hi, rfl⟩
  · intro hv
    have hs : v ∈ c.set_ := (hc.2.1 v).mp hv
    simp [emplace, hs]

/-- Witness of C17: `emplace(cbegin(), 4)` on the container constructed from
`[1,2,3]`, then the same call again. -/
theorem emplace_spec_witness :
    (Inv (mk_range [1, 2, 3]) ∧ 0 ≤ (mk_range [1, 2, 3]).size ∧ 4 ∉ (mk_range [1, 2, 3]).deque_
      ∧ Inv (mk_range [4, 1, 2, 3]) ∧ 4 ∈ (mk_range [4, 1, 2, 3]).deque_) ∧
    (emplace (mk_range [1, 2, 3]) 0 4).2 = (0, true) ∧
    emplace (mk_range [4, 1, 2, 3]) 0 4 = (mk_range [4, 1, 2, 3], 0, false) :=
  ⟨⟨(inv_iff _).mpr (by decide), by decide, by decide, (inv_iff _).mpr (by decide), by decide⟩,
   ((emplace_spec (mk_range [1, 2, 3]) ((inv_iff _).mpr (by decide)) 0 (by decide) 4).1
      (by decide)).1,
   (emplace_spec (mk_range [4, 1, 2, 3]) ((inv_iff _).mpr (by decide)) 0 (by decide) 4).2.1
      (by decide)⟩

/-- C18: on a container satisfying the invariants: when `v` is not a member,
`emplace_front` returns a present result referring to an element equal to `v`, which
is at position 0 followed by the old sequence, and the Membership Index gains `v`;
when `v` is a member the result is absent and the state is unchanged. -/
theorem emplace_front_spec (c : deque_of_unique T) (hc : Inv c) (v : T) :
    (v ∉ c.deque_ →
      (emplace_front c v).2 = some v ∧
      (emplace_front c v).1.deque_ = v :: c.deque_ ∧
      (emplace_front c v).1.deque_[0]? = (emplace_front c v).2 ∧
      (emplace_front c v).1.set_ = Insert.insert v c.set_) ∧
    (v ∈ c.deque_ → emplace_front c v = (c, none)) := by
  constructor
  · intro hv
    have hs : v ∉ c.set_ := fun h => hv ((hc.2.1 v).mpr h)
    simp [emplace_front, hs]
  · intro hv
    have hs : v ∈ c.set_ := (hc.2.1 v).mp hv
    simp [emplace_front, hs]

/-- Witness of C18: `emplace_front(0)` and `emplace_front(2)` on the container
constructed from `[1,2]`. -/
theorem emplace_front_spec_witness :
    (Inv (mk_range [1, 2]) ∧ 0 ∉ (mk_range [1, 2]).deque_ ∧ 2 ∈ (mk_range [1, 2]).deque_) ∧
    (emplace_front (mk_range [1, 2]) 0).2 = some 0 ∧
    emplace_front (mk_range [1, 2]) 2 = (mk_range [1, 2], none) :=
  ⟨⟨(inv_iff _).mpr (by decide), by decide, by decide⟩,
   ((emplace_front_spec (mk_range [1, 2]) ((inv_iff _).mpr (by decide)) 0).1 (by decide)).1,
   (emplace_front_spec (mk_range [1, 2]) ((inv_iff _).mpr (by decide)) 2).2 (by decide)⟩

/-- C19: on a container satisfying the invariants: when `v` is not a member,
`emplace_back` returns a present result referring to an element equal to `v`, which
is at position `size()-1` preceded by the old sequence, and the Membership Index
gains `v`; when `v` is a member the result is absent and the state is unchanged. -/
theorem emplace_back_spec (c : deque_of_unique T) (hc : Inv c) (v : T) :
    (v ∉ c.deque_ →
      (emplace_back c v).2 = some v ∧
      (emplace_back c v).1.deque_ = c.deque_ ++ [v] ∧
      (emplace_back c v).1.deque_[(emplace_back c v).1.size - 1]? = (emplace_back c v).2 ∧
      (emplace_back c v).1.set_ = Insert.insert v c.set_) ∧
    (v ∈ c.deque_ → emplace_back c v = (c, none)) := by
  constructor
  · intro hv
    have hs : v ∉ c.set_ := fun h => hv ((hc.2.1 v).mpr h)
    simp [emplace_back, hs, size]
  · intro hv
    have hs : v ∈ c.set_ := (hc.2.1 v).mp hv
    simp [emplace_back, hs]

/-- Witness of C19: `emplace_back(3)` and `emplace_back(1)` on the container
constructed from `[1,2]`. -/
theorem emplace_back_spec_witness :
    (Inv (mk_range [1, 2]) ∧ 3 ∉ (mk_range [1, 2]).deque_ ∧ 1 ∈ (mk_range [1, 2]).deque_) ∧
    (emplace_back (mk_range [1, 2]) 3).2 = some 3 ∧
    emplace_back (mk_range [1, 2]) 1 = (mk_range [1, 2], none) :=
  ⟨⟨(inv_iff _).mpr (by decide), by decide, by decide⟩,
   ((emplace_back_spec (mk_range [1, 2]) ((inv_iff _).mpr (by decide)) 3).1 (by decide)).1,
   (emplace_back_spec (mk_range [1, 2]) ((inv_iff _).mpr (by decide)) 1).2 (by decide)⟩

/-! ## Erase at a position -/

/-- C20: on a non-empty container satisfying the invariants, for `0 <= p < size()`,
`erase(p)` removes the element `x` at index `p` from the Sequence Store and keeps
every other element in place order (positions before `p` unchanged, later ones
moved down by one); the Membership Index loses `x` and nothing else; the returned
iterator is at index `p`, where the element that followed `x` now stands, and is
the end iterator when `x` was the last element. -/
theorem erase_spec (c : deque_of_unique T) (hc : Inv c) (p : Nat) (hp : p < c.size) :
    ∃ x : T, c.deque_[p]? = some x ∧
      (erase c p).1.deque_ = c.deque_.take p ++ c.deque_.drop (p + 1) ∧
      (∀ i, i < p → (erase c p).1.deque_[i]? = c.deque_[i]?) ∧
      (∀ i, p ≤ i → (erase c p).1.deque_[i]? = c.deque_[i + 1]?) ∧
      (erase c p).1.size + 1 = c.size ∧
      x ∉ (erase c p).1.deque_ ∧
      (erase c p).1.set_ = c.set_.erase x ∧
      x ∈ c.set_ ∧ x ∉ (erase c p).1.set_ ∧
      (∀ y, y ≠ x → (y ∈ (erase c p).1.set_ ↔ y ∈ c.set_)) ∧
      (erase c p).2 = p ∧
      (erase c p).1.deque_[(erase c p).2]? = c.deque_[p + 1]? ∧
      (p + 1 = c.size → (erase c p).2 = (erase c p).1.cend) := by
  have hp' : p < c.deque_.length := hp
  have hx : c.deque_[p]? = some (c.deque_.get ⟨p, hp'⟩) := List.getElem?_eq_getElem hp'
  have hne : c.deque_.isEmpty = false := by
    cases hd : c.deque_ with
    | nil => rw [hd] at hp'; exact absurd hp' (Nat.not_lt_zero _)
    | cons a l => rfl
  have her : erase c p =
      ({ deque_ := deque_erase c.deque_ p,
         set_ := c.set_.erase (c.deque_.get ⟨p, hp'⟩) }, p) := by
    unfold erase
    rw [hne, hx]
    rfl
  have hperm := deque_erase_perm c.deque_ p _ hx
  have hnd : (c.deque_.get ⟨p, hp'⟩ :: deque_erase c.deque_ p).Nodup :=
    hperm.nodup_iff.mp hc.2.2
  have hlen := deque_erase_length c.deque_ p hp'
  refine ⟨c.deque_.get ⟨p, hp'⟩, hx, ?_⟩
  rw [her]
  refine ⟨rfl, fun i hi => deque_erase_getElem?_lt _ _ _ hp' hi,
    fun i hi => deque_erase_getElem?_ge _ _ _ hp' hi, hlen, (List.nodup_cons.mp hnd).1, rfl,
    (hc.2.1 _).mp (List.get_mem _ _ _), ?_, ?_, rfl,
    deque_erase_getElem?_ge _ _ _ hp' (Nat.le_refl p), ?_⟩
  · exact Finset.not_mem_erase _ _
  · intro y hy
    exact ⟨fun h => (Finset.mem_erase.mp h).2, fun h => Finset.mem_erase.mpr ⟨hy, h⟩⟩
  · intro hlast
    show p = (deque_erase c.deque_ p).length
    have hsz : c.size = c.deque_.length := rfl
    omega

/-- Witness of C20: `erase(cbegin())` on the container constructed from
`[1,2,3,4,5]`. -/
theorem erase_spec_witness :
    (Inv (mk_range [1, 2, 3, 4, 5]) ∧ 0 < (mk_range [1, 2, 3, 4, 5]).size) ∧
    ∃ x : Nat, (mk_range [1, 2, 3, 4, 5]).deque_[0]? = some x ∧
      (erase (mk_range [1, 2, 3, 4, 5]) 0).1.set_ = (mk_range [1, 2, 3, 4, 5]).set_.erase x :=
  ⟨⟨(inv_iff _).mpr (by decide), by decide⟩,
   (erase_spec (mk_range [1, 2, 3, 4, 5]) ((inv_iff _).mpr (by decide)) 0 (by decide)).imp
     (fun _ h => ⟨h.1, h.2.2.2.2.2.2.1⟩)⟩

/-! ## The comparisons of `std::deque` -/

theorem deque_eq_iff (l₁ l₂ : List T) : deque_eq l₁ l₂ = true ↔ l₁ = l₂ := by
  induction l₁ generalizing l₂ with
  | nil =>
    cases l₂ with
    | nil => simp [deque_eq]
    | cons y ys => simp [deque_eq]
  | cons x xs ih =>
    cases l₂ with
    | nil => simp [deque_eq]
    | cons y ys =>
      have h := ih ys
      simp only [deque_eq, Bool.and_eq_true, beq_iff_eq, List.length_cons, List.zip_cons_cons,
        List.all_cons, List.cons.injEq, Nat.add_right_cancel_iff] at h ⊢
      constructor
      · rintro ⟨hlen, hxy, hall⟩
        exact ⟨hxy, h.mp ⟨hlen, hall⟩⟩
      · rintro ⟨hxy, hrest⟩
        exact ⟨(h.mpr hrest).1, hxy, (h.mpr hrest).2⟩

theorem eq_iff_length_getElem? {α : Type} (l₁ l₂ : List α) :
    l₁ = l₂ ↔ l₁.length = l₂.length ∧ ∀ i, i < l₁.length → l₁[i]? = l₂[i]? := by
  constructor
  · rintro rfl
    exact ⟨rfl, fun _ _ => rfl⟩
  · rintro ⟨hlen, h⟩
    apply List.ext_getElem?
    intro i
    by_cases hi : i < l₁.length
    · exact h i hi
    · rw [List.getElem?_eq_none (Nat.le_of_not_lt hi),
        List.getElem?_eq_none (hlen ▸ Nat.le_of_not_lt hi)]

theorem deque_compare_three_way_eq_iff {α : Type} [LinearOrder α] (l₁ l₂ : List α) :
    deque_compare_three_way l₁ l₂ = Ordering.eq ↔ l₁ = l₂ := by
  induction l₁ generalizing l₂ with
  | nil => cases l₂ <;> simp [deque_compare_three_way]
  | cons x xs ih =>
    cases l₂ with
    | nil => simp [deque_compare_three_way]
    | cons y ys =>
      unfold deque_compare_three_way
      by_cases h1 : x < y
      · simp [h1, ne_of_lt h1]
      · by_cases h2 : y < x
        · simp [h1, h2, (ne_of_lt h2).symm]
        · have hxy : x = y := le_antisymm (not_lt.mp h2) (not_lt.mp h1)
          simp [h1, h2, hxy, ih ys]

theorem deque_compare_three_way_gt_iff {α : Type} [LinearOrder α] (l₁ l₂ : List α) :
    deque_compare_three_way l₁ l₂ = Ordering.gt ↔
      deque_compare_three_way l₂ l₁ = Ordering.lt := by
  induction l₁ generalizing l₂ with
  | nil => cases l₂ <;> simp [deque_compare_three_way]
  | cons x xs ih =>
    cases l₂ with
    | nil => simp [deque_compare_three_way]
    | cons y ys =>
      unfold deque_compare_three_way
      by_cases h1 : x < y
      · simp [h1, not_lt_of_lt h1]
      · by_cases h2 : y < x
        · simp [h1, h2]
        · simp [h1, h2, ih ys]

theorem first_difference_smaller_cons {α : Type} [LinearOrder α] (x : α) (xs ys : List α) :
    first_difference_smaller (x :: xs) (x :: ys) ↔ first_difference_smaller xs ys := by
  constructor
  · rintro ⟨i, a, b, ha, hb, hab, hlt⟩
    cases i with
    | zero =>
      rw [List.getElem?_cons_zero] at ha hb
      injection ha with ha
      injection hb with hb
      subst ha
      subst hb
      exact absurd hab (lt_irrefl _)
    | succ k =>
      rw [List.getElem?_cons_succ] at ha hb
      refine ⟨k, a, b, ha, hb, hab, fun j hj => ?_⟩
      have := hlt (j + 1) (Nat.succ_lt_succ hj)
      rwa [List.getElem?_cons_succ, List.getElem?_cons_succ] at this
  · rintro ⟨i, a, b, ha, hb, hab, hlt⟩
    refine ⟨i + 1, a, b, by rw [List.getElem?_cons_succ]; exact ha,
      by rw [List.getElem?_cons_succ]; exact hb, hab, fun j hj => ?_⟩
    cases j with
    | zero => rw [List.getElem?_cons_zero, List.getElem?_cons_zero]
    | succ k =>
      rw [List.getElem?_cons_succ, List.getElem?_cons_succ]
      exact hlt k (Nat.lt_of_succ_lt_succ hj)

theorem proper_prefix_cons {α : Type} (x : α) (xs ys : List α) :
    proper_prefix (x :: xs) (x :: ys) ↔ proper_prefix xs ys := by
  unfold proper_prefix
  rw [List.cons_prefix_cons, List.length_cons, List.length_cons]
  constructor
  · rintro ⟨⟨_, hp⟩, hl⟩
    exact ⟨hp, Nat.lt_of_succ_lt_succ hl⟩
  · rintro ⟨hp, hl⟩
    exact ⟨⟨rfl, hp⟩, Nat.succ_lt_succ hl⟩

theorem deque_compare_three_way_lt_iff {α : Type} [LinearOrder α] (l₁ l₂ : List α) :
    deque_compare_three_way l₁ l₂ = Ordering.lt ↔
      first_difference_smaller l₁ l₂ ∨ proper_prefix l₁ l₂ := by
  induction l₁ generalizing l₂ with
  | nil =>
    cases l₂ with
    | nil =>
      constructor
      · intro h
        have h' : Ordering.eq = Ordering.lt := h
        cases h'
      · rintro (⟨i, a, b, ha, _⟩ | ⟨_, hlen⟩)
        · simp at ha
        · exact absurd hlen (Nat.lt_irrefl _)
    | cons y ys =>
      constructor
      · intro _
        exact Or.inr ⟨List.nil_prefix, Nat.succ_pos _⟩
      · intro _
        rfl
  | cons x xs ih =>
    cases l₂ with
    | nil =>
      constructor
      · intro h
        have h' : Ordering.gt = Ordering.lt := h
        cases h'
      · rintro (⟨i, a, b, _, hb, _⟩ | ⟨_, hlen⟩)
        · simp at hb
        · exact absurd hlen (Nat.not_lt_zero _)
    | cons y ys =>
      have hunf : deque_compare_three_way (x :: xs) (y :: ys)
          = if x < y then Ordering.lt
            else if y < x then Ordering.gt else deque_compare_three_way xs ys := rfl
      rw [hunf]
      by_cases h1 : x < y
      · rw [if_pos h1]
        constructor
        · intro _
          exact Or.inl ⟨0, x, y, List.getElem?_cons_zero, List.getElem?_cons_zero, h1,
            fun j hj => absurd hj (Nat.not_lt_zero j)⟩
        · intro _
          rfl
      · by_cases h2 : y < x
        · rw [if_neg h1, if_pos h2]
          constructor
          · intro h
            cases h
          · rintro (⟨i, a, b, ha, hb, hab, hlt⟩ | ⟨hpre, _⟩)
            · cases i with
              | zero =>
                rw [List.getElem?_cons_zero] at ha hb
                injection ha with ha
                injection hb with hb
                subst ha
                subst hb
                exact absurd hab h1
              | succ k =>
                have h0 := hlt 0 (Nat.succ_pos k)
                rw [List.getElem?_cons_zero, List.getElem?_cons_zero] at h0
                injection h0 with h0
                subst h0
                exact absurd h2 (lt_irrefl _)
            · have hxy := (List.cons_prefix_cons.mp hpre).1
              subst hxy
              exact absurd h2 (lt_irrefl _)
        · have hxy : x = y := le_antisymm (not_lt.mp h2) (not_lt.mp h1)
          subst hxy
          rw [if_neg h1, if_neg h1, ih ys, first_difference_smaller_cons, proper_prefix_cons]

/-! ## Positions after `std::deque::erase(first, last)` -/

theorem deque_erase_range_getElem?_lt {α : Type} (d : List α) (first last i : Nat)
    (hf : first ≤ d.length) (hi : i < first) :
    (deque_erase_range d first last)[i]? = d[i]? := by
  unfold deque_erase_range
  rw [List.getElem?_append_left (by rw [List.length_take]; omega),
    List.getElem?_take_of_lt hi]

theorem deque_erase_range_getElem?_ge {α : Type} (d : List α) (first last i : Nat)
    (hfl : first ≤ last) (hf : first ≤ d.length) (hi : first ≤ i) :
    (deque_erase_range d first last)[i]? = d[i + (last - first)]? := by
  unfold deque_erase_range
  have hlen : (d.take first).length = first := by rw [List.length_take]; omega
  rw [List.getElem?_append_right (by omega), hlen, List.getElem?_drop]
  congr 1
  omega

theorem deque_erase_range_length {α : Type} (d : List α) (first last : Nat)
    (hfl : first ≤ last) (hl : last ≤ d.length) :
    (deque_erase_range d first last).length + (last - first) = d.length := by
  unfold deque_erase_range
  rw [List.length_append, List.length_take, List.length_drop]
  omega

theorem deque_erase_range_self {α : Type} (d : List α) (first : Nat) :
    deque_erase_range d first first = d :=
  List.take_append_drop first d

/-! ## Copying a duplicate-free sequence -/

theorem keep_first_occurrence_of_nodup (l : List T) (h : l.Nodup) :
    keep_first_occurrence l = l := by
  induction l with
  | nil => rfl
  | cons x xs ih =>
    obtain ⟨hx, hxs⟩ := List.nodup_cons.mp h
    show x :: (keep_first_occurrence xs).filter (fun y => y ≠ x) = x :: xs
    rw [ih hxs, List.filter_eq_self.mpr]
    intro a ha
    have hne : a ≠ x := fun h' => hx (h' ▸ ha)
    simpa using hne

theorem mk_copy_eq {other : deque_of_unique T} (h : Inv other) : mk_copy other = other := by
  have hi := (inv_iff other).mp h
  apply eq_of_stores
  · show (mk_range other.deque_).deque_ = other.deque_
    rw [mk_range_deque, keep_first_occurrence_of_nodup _ hi.1]
  · show (mk_range other.deque_).set_ = other.set_
    rw [mk_range_set, hi.2]

/-! ## Iteration -/

theorem visit_forward_eq_drop (c : deque_of_unique T) :
    ∀ (fuel it : Nat), it ≤ c.deque_.length → c.deque_.length - it ≤ fuel →
      visit_forward c fuel it c.deque_.length = c.deque_.drop it := by
  intro fuel
  induction fuel with
  | zero =>
    intro it hle hfuel
    have hit : it = c.deque_.length := by omega
    rw [hit, List.drop_length]
    rfl
  | succ n ih =>
    intro it hle hfuel
    by_cases hit : it = c.deque_.length
    · rw [hit, List.drop_length]
      simp [visit_forward]
    · have hlt : it < c.deque_.length := by omega
      have hget : deref c it = some (c.deque_.get ⟨it, hlt⟩) := List.getElem?_eq_getElem hlt
      have hstep : visit_forward c (n + 1) it c.deque_.length
          = c.deque_.get ⟨it, hlt⟩ :: visit_forward c n (it + 1) c.deque_.length := by
        simp [visit_forward, hit, hget]
      rw [hstep, ih (it + 1) (by omega) (by omega), List.drop_eq_getElem_cons hlt]
      rfl

theorem visit_reverse_eq_take (c : deque_of_unique T) :
    ∀ (fuel r : Nat), r ≤ c.deque_.length → r ≤ fuel →
      visit_reverse c fuel r 0 = (c.deque_.take r).reverse := by
  intro fuel
  induction fuel with
  | zero =>
    intro r _ hfuel
    have hr : r = 0 := by omega
    rw [hr]
    rfl
  | succ n ih =>
    intro r hle hfuel
    cases r with
    | zero => simp [visit_reverse]
    | succ k =>
      have hlt : k < c.deque_.length := by omega
      have hget : deref_reverse c (k + 1) = some (c.deque_.get ⟨k, hlt⟩) := by
        simp [deref_reverse, List.getElem?_eq_getElem hlt]
      have hstep : visit_reverse c (n + 1) (k + 1) 0
          = c.deque_.get ⟨k, hlt⟩ :: visit_reverse c n k 0 := by
        simp [visit_reverse, hget]
      rw [hstep, ih k (by omega) (by omega), List.take_succ, List.getElem?_eq_getElem hlt]
      show _ = (c.deque_.take k ++ [c.deque_[k]]).reverse
      rw [List.reverse_append]
      rfl

/-! ## Erase of a range, clear, swap -/

/-- C21: on a container satisfying the invariants, for `0 <= first <= last <= size()`,
`erase(first, last)` removes the elements at indices `first..last-1` from the
Sequence Store (positions before `first` unchanged, later ones moved down by
`last - first`), removes exactly those values from the Membership Index, and returns
the iterator at index `first`. When `first == last` nothing changes and the returned
iterator equals `last`; when the range is the whole container both stores end empty
and the end iterator is returned. -/
theorem erase_range_spec (c : deque_of_unique T) (hc : Inv c) (first last : Nat)
    (hfl : first ≤ last) (hl : last ≤ c.size) :
    (erase_range c first last).2 = first ∧
    (erase_range c first last).1.deque_ = c.deque_.take first ++ c.deque_.drop last ∧
    (∀ i, i < first → (erase_range c first last).1.deque_[i]? = c.deque_[i]?) ∧
    (∀ i, first ≤ i →
      (erase_range c first last).1.deque_[i]? = c.deque_[i + (last - first)]?) ∧
    (erase_range c first last).1.size + (last - first) = c.size ∧
    (∀ y, y ∈ (erase_range c first last).1.set_
      ↔ y ∈ c.set_ ∧ y ∉ (c.deque_.take last).drop first) ∧
    (∀ y, y ∈ (c.deque_.take last).drop first → y ∉ (erase_range c first last).1.deque_) ∧
    (first = last → erase_range c first last = (c, last)) ∧
    (first = 0 → last = c.size →
      (erase_range c first last).1.deque_ = [] ∧ (erase_range c first last).1.set_ = ∅ ∧
      (erase_range c first last).2 = (erase_range c first last).1.cend) := by
  have hl' : last ≤ c.deque_.length := hl
  have hnoop : first = last → erase_range c first last = (c, last) := by
    intro h
    simp [erase_range, h]
  have hret : (erase_range c first last).2 = first := by
    by_cases h : first = last
    · rw [hnoop h, h]
    · simp [erase_range, h]
  have hdq : (erase_range c first last).1.deque_ = deque_erase_range c.deque_ first last := by
    by_cases h : first = last
    · rw [hnoop h, h, deque_erase_range_self]
    · simp [erase_range, h]
  have hset : (erase_range c first last).1.set_
      = c.set_ \ ((c.deque_.take last).drop first).toFinset := by
    by_cases h : first = last
    · have hnil : (c.deque_.take last).drop first = [] := by
        apply List.drop_eq_nil_of_le
        rw [List.length_take, h]
        exact Nat.min_le_left _ _
      rw [hnoop h, hnil]
      simp
    · have : (erase_range c first last).1.set_
          = ((c.deque_.take last).drop first).foldl (fun s x => s.erase x) c.set_ := by
        simp [erase_range, h]
      rw [this, foldl_erase_eq]
  have hinv := inv_erase_range hc first last hfl
  have hmem : ∀ y, y ∈ (erase_range c first last).1.set_
      ↔ y ∈ c.set_ ∧ y ∉ (c.deque_.take last).drop first := by
    intro y
    rw [hset, Finset.mem_sdiff, List.mem_toFinset]
  refine ⟨hret, hdq, ?_, ?_, ?_, hmem, ?_, hnoop, ?_⟩
  · intro i hi
    rw [hdq]
    exact deque_erase_range_getElem?_lt _ _ _ _ (by omega) hi
  · intro i hi
    rw [hdq]
    exact deque_erase_range_getElem?_ge _ _ _ _ hfl (by omega) hi
  · show (erase_range c first last).1.deque_.length + (last - first) = c.deque_.length
    rw [hdq]
    exact deque_erase_range_length _ _ _ hfl hl'
  · intro y hy hin
    exact ((hmem y).mp ((hinv.2.1 y).mp hin)).2 hy
  · intro h0 hsize
    have hsize' : last = c.deque_.length := hsize
    have hd : (erase_range c first last).1.deque_ = [] := by
      rw [hdq, h0, hsize']
      simp [deque_erase_range]
    refine ⟨hd, ?_, ?_⟩
    · rw [((inv_iff _).mp hinv).2, hd]
      rfl
    · rw [hret]
      show first = (erase_range c first last).1.deque_.length
      rw [hd, h0]
      rfl

/-- Witness of C21: `erase(cbegin(), cbegin() + 3)` on the container constructed
from `[1,2,3,4,5,6]`. -/
theorem erase_range_spec_witness :
    (Inv (mk_range [1, 2, 3, 4, 5, 6]) ∧ 0 ≤ 3 ∧ 3 ≤ (mk_range [1, 2, 3, 4, 5, 6]).size) ∧
    (erase_range (mk_range [1, 2, 3, 4, 5, 6]) 0 3).2 = 0 ∧
    (erase_range (mk_range [1, 2, 3, 4, 5, 6]) 0 3).1.deque_
      = (mk_range [1, 2, 3, 4, 5, 6]).deque_.take 0 ++ (mk_range [1, 2, 3, 4, 5, 6]).deque_.drop 3 ∧
    (erase_range (mk_range [1, 2, 3, 4, 5, 6]) 0 3).1 = mk_range [4, 5, 6] :=
  ⟨⟨(inv_iff _).mpr (by decide), by decide, by decide⟩,
   (erase_range_spec (mk_range [1, 2, 3, 4, 5, 6]) ((inv_iff _).mpr (by decide)) 0 3
      (by decide) (by decide)).1,
   (erase_range_spec (mk_range [1, 2, 3, 4, 5, 6]) ((inv_iff _).mpr (by decide)) 0 3
      (by decide) (by decide)).2.1,
   by decide⟩

/-- C22: for every container, `clear()` leaves both the Sequence Store and the
Membership Index empty, so `size()` is 0 and `empty()` is true afterwards. It is a
total function: there is no failure to report. -/
theorem clear_spec (c : deque_of_unique T) :
    (clear c).deque_ = [] ∧ (clear c).set_ = ∅ ∧ (clear c).size = 0 ∧
    (clear c).empty = true ∧ Inv (clear c) :=
  ⟨rfl, rfl, rfl, rfl, inv_clear c⟩

/-- C23: for every two containers `a` and `b`, `a.swap(b)` exchanges their full
state: afterwards `a` has `b`'s former Sequence Store and Membership Index and `b`
has `a`'s former ones. -/
theorem swap_spec (a b : deque_of_unique T) :
    (swap a b).1.deque_ = b.deque_ ∧ (swap a b).1.set_ = b.set_ ∧
    (swap a b).2.deque_ = a.deque_ ∧ (swap a b).2.set_ = a.set_ ∧
    swap a b = (b, a) ∧ (swap a a = (a, a)) :=
  ⟨rfl, rfl, rfl, rfl, rfl, rfl⟩

/-! ## Comparison operators -/

/-- C24: `a == b` holds if and only if the two sequences have the same length and
equal elements at every position; the Membership Index has no part in it; two
containers with the same set of elements in a different order compare unequal; and
`!=` is the negation of `==`. -/
theorem operator_eq_spec (a b : deque_of_unique T) :
    (operator_eq a b = true ↔
      a.deque_.length = b.deque_.length ∧
      ∀ i, i < a.deque_.length → a.deque_[i]? = b.deque_[i]?) ∧
    (∀ s₁ s₂ : Finset T,
      operator_eq { deque_ := a.deque_, set_ := s₁ } { deque_ := b.deque_, set_ := s₂ }
        = operator_eq a b) ∧
    (a.set_ = b.set_ → a.deque_ ≠ b.deque_ → operator_eq a b = false) ∧
    operator_ne a b = !operator_eq a b ∧
    (operator_eq (mk_range [1, 2]) (mk_range [2, 1]) = false ∧
      (mk_range [1, 2]).set_ = (mk_range [2, 1]).set_) := by
  refine ⟨?_, fun _ _ => rfl, ?_, rfl, by decide, by decide⟩
  · unfold operator_eq
    rw [deque_eq_iff, eq_iff_length_getElem?]
  · intro _ hne
    unfold operator_eq
    cases h : deque_eq a.deque_ b.deque_ with
    | false => rfl
    | true => exact absurd ((deque_eq_iff _ _).mp h) hne

/-- Witness of C24: the containers constructed from `[1,2,3]` and from `[3,2,1]`. -/
theorem operator_eq_spec_witness :
    ((mk_range [1, 2, 3]).set_ = (mk_range [3, 2, 1]).set_ ∧
      (mk_range [1, 2, 3]).deque_ ≠ (mk_range [3, 2, 1]).deque_) ∧
    operator_eq (mk_range [1, 2, 3]) (mk_range [3, 2, 1]) = false :=
  ⟨⟨by decide, by decide⟩,
   (operator_eq_spec (mk_range [1, 2, 3]) (mk_range [3, 2, 1])).2.2.1 (by decide) (by decide)⟩

theorem ordering_beq_iff (o₁ o₂ : Ordering) : (o₁ == o₂) = true ↔ o₁ = o₂ := by
  cases o₁ <;> cases o₂ <;> decide

theorem operator_le_iff {α : Type} [DecidableEq α] [LinearOrder α] (a b : deque_of_unique α) :
    operator_le a b = true ↔
      operator_spaceship a b = Ordering.lt ∨ operator_eq a b = true := by
  unfold operator_le operator_spaceship operator_eq
  simp only [Bool.or_eq_true, ordering_beq_iff]
  rw [deque_eq_iff, deque_compare_three_way_eq_iff]

theorem operator_gt_iff {α : Type} [DecidableEq α] [LinearOrder α] (a b : deque_of_unique α) :
    operator_gt a b = true ↔ operator_spaceship b a = Ordering.lt := by
  unfold operator_gt operator_spaceship
  rw [ordering_beq_iff]
  exact deque_compare_three_way_gt_iff _ _

theorem operator_ge_iff {α : Type} [DecidableEq α] [LinearOrder α] (a b : deque_of_unique α) :
    operator_ge a b = true ↔ operator_le b a = true := by
  unfold operator_ge operator_le
  simp only [Bool.or_eq_true, ordering_beq_iff]
  rw [deque_compare_three_way_gt_iff, deque_compare_three_way_eq_iff,
    deque_compare_three_way_eq_iff]
  exact or_congr Iff.rfl eq_comm

/-- C25, on the code that is well-formed: over a totally ordered element type
`a <=> b` yields `less` if and only if either at the first position where the
sequences differ `a` holds the smaller element, or `a`'s sequence is a proper prefix
of `b`'s; on the containers constructed from `[1,2]` and `[1,3]` it yields `less`.
The source defines no `operator<`: the body written for it is no expression of the
language. -/
theorem operator_spaceship_lexicographic {α : Type} [DecidableEq α] [LinearOrder α]
    (a b : deque_of_unique α) :
    (operator_spaceship a b = Ordering.lt ↔
      first_difference_smaller a.deque_ b.deque_ ∨ proper_prefix a.deque_ b.deque_) ∧
    operator_spaceship (mk_range [1, 2]) (mk_range [1, 3]) = Ordering.lt ∧
    operator_spaceship (mk_range [1, 3]) (mk_range [1, 2]) = Ordering.gt ∧
    operator_spaceship (mk_range [1, 2]) (mk_range [1, 2, 3]) = Ordering.lt :=
  ⟨deque_compare_three_way_lt_iff _ _, by decide, by decide, by decide⟩

/-! ## Copy, move, assignment -/

/-- C26: for a source satisfying the invariants, copy construction yields a
container with the same Sequence Store (same elements, same order) and the same
Membership Index. The copy is a state of its own, rebuilt element by element: a
`push_back` on it gives its new state, as the same `push_back` on the source would,
and the source stands as it was. -/
theorem mk_copy_spec (other : deque_of_unique T) (h : Inv other) :
    (mk_copy other).deque_ = other.deque_ ∧
    (mk_copy other).set_ = other.set_ ∧
    mk_copy other = other ∧
    Inv (mk_copy other) ∧
    (∀ v, (push_back (mk_copy other) v).1 = (push_back other v).1) := by
  have heq := mk_copy_eq h
  refine ⟨by rw [heq], by rw [heq], heq, by rw [heq]; exact h, fun v => by rw [heq]⟩

/-- Witness of C26: the copy of the container constructed from `[1,2,3]`, and
`push_back(4)` on the source. -/
theorem mk_copy_spec_witness :
    Inv (mk_range [1, 2, 3]) ∧
    (mk_copy (mk_range [1, 2, 3])).deque_ = (mk_range [1, 2, 3]).deque_ ∧
    (push_back (mk_range [1, 2, 3]) 4).1.deque_ = [1, 2, 3, 4] ∧
    (mk_copy (mk_range [1, 2, 3])).deque_ = [1, 2, 3] :=
  ⟨(inv_iff _).mpr (by decide),
   (mk_copy_spec (mk_range [1, 2, 3]) ((inv_iff _).mpr (by decide))).1,
   by decide, by decide⟩

/-- C27: move construction gives the new container the source's former Sequence
Store and Membership Index and leaves the source empty in both stores; the
moved-from source satisfies the invariants, and so does the destination when the
source did. -/
theorem mk_move_spec (other : deque_of_unique T) :
    (mk_move other).1.deque_ = other.deque_ ∧
    (mk_move other).1.set_ = other.set_ ∧
    (mk_move other).2.deque_ = [] ∧
    (mk_move other).2.set_ = ∅ ∧
    Inv (mk_move other).2 ∧
    (Inv other → Inv (mk_move other).1) :=
  ⟨rfl, rfl, rfl, rfl, inv_mk_default, fun h => h⟩

/-- Witness of C27: the move of the container constructed from `[1,2,3,4]`. -/
theorem mk_move_spec_witness :
    Inv (mk_range [1, 2, 3, 4]) ∧
    Inv (mk_move (mk_range [1, 2, 3, 4])).1 ∧
    (mk_move (mk_range [1, 2, 3, 4])).1.deque_ = (mk_range [1, 2, 3, 4]).deque_ ∧
    (mk_move (mk_range [1, 2, 3, 4])).2.deque_ = [] :=
  ⟨(inv_iff _).mpr (by decide),
   (mk_move_spec (mk_range [1, 2, 3, 4])).2.2.2.2.2 ((inv_iff _).mpr (by decide)),
   (mk_move_spec (mk_range [1, 2, 3, 4])).1,
   (mk_move_spec (mk_range [1, 2, 3, 4])).2.2.1⟩

/-- C28: assigning the initializer list `xs` to any container replaces its contents:
the result is the state after `clear()` followed by `push_back` of each element of
`xs` in order, which is the state of a container constructed from `xs`; every
element of the result is an element of `xs`. -/
theorem assign_ilist_spec (c : deque_of_unique T) (xs : List T) :
    assign_ilist c xs = clear_then_push_back c xs ∧
    assign_ilist c xs = mk_range xs ∧
    (assign_ilist c xs).deque_ = keep_first_occurrence xs ∧
    (assign_ilist c xs).set_ = xs.toFinset ∧
    (assign_ilist c xs).deque_ ⊆ xs ∧
    (assign_ilist c xs).set_ ⊆ xs.toFinset ∧
    (assign_ilist (mk_range [1, 2, 3]) [3, 4, 4, 5]).deque_ = [3, 4, 5] := by
  have h1 : assign_ilist c xs = mk_range xs := rfl
  have h2 : clear_then_push_back c xs = mk_range xs := rfl
  refine ⟨by rw [h1, h2], h1, by rw [h1, mk_range_deque], by rw [h1, mk_range_set], ?_,
    by rw [h1, mk_range_set], by decide⟩
  rw [h1, mk_range_deque]
  exact (keep_first_occurrence_sublist xs).subset

/-! ## Element access and iteration -/

/-- C29: on a non-empty container `front()` returns the element at position 0,
`back()` the element at position `size()-1`, and for every `i < size()` the
unchecked `operator[](i)` returns the element that `at(i)` returns. The accessors
yield a value only: no store changes. -/
theorem accessors_spec (c : deque_of_unique T) (hne : c.empty = false) :
    (∃ x, front c = some x ∧ c.deque_[0]? = some x) ∧
    (∃ x, back c = some x ∧ c.deque_[c.size - 1]? = some x) ∧
    (∀ i, i < c.size →
      ∃ x, operator_subscript c i = some x ∧ c.deque_[i]? = some x ∧
        at_ c i = Except.ok x) := by
  have hpos : 0 < c.deque_.length := by
    cases hd : c.deque_ with
    | nil => simp [empty, hd] at hne
    | cons a l => exact Nat.succ_pos _
  refine ⟨?_, ?_, ?_⟩
  · refine ⟨c.deque_.get ⟨0, hpos⟩, ?_, List.getElem?_eq_getElem hpos⟩
    unfold front
    rw [List.head?_eq_getElem?]
    exact List.getElem?_eq_getElem hpos
  · have hlast : c.deque_.length - 1 < c.deque_.length := by omega
    refine ⟨c.deque_.get ⟨c.deque_.length - 1, hlast⟩, ?_, List.getElem?_eq_getElem hlast⟩
    unfold back
    rw [List.getLast?_eq_getElem?]
    exact List.getElem?_eq_getElem hlast
  · intro i hi
    have hi' : i < c.deque_.length := hi
    refine ⟨c.deque_.get ⟨i, hi'⟩, List.getElem?_eq_getElem hi', List.getElem?_eq_getElem hi', ?_⟩
    unfold at_
    rw [dif_pos hi']

/-- Witness of C29: the accessors on the container constructed from `[1,2,3,4]`. -/
theorem accessors_spec_witness :
    (mk_range [1, 2, 3, 4]).empty = false ∧
    (∃ x, front (mk_range [1, 2, 3, 4]) = some x ∧ (mk_range [1, 2, 3, 4]).deque_[0]? = some x) ∧
    front (mk_range [1, 2, 3, 4]) = some 1 ∧ back (mk_range [1, 2, 3, 4]) = some 4 ∧
    operator_subscript (mk_range [1, 2, 3, 4]) 2 = some 3 :=
  ⟨by decide, (accessors_spec (mk_range [1, 2, 3, 4]) (by decide)).1,
   by decide, by decide, by decide⟩

/-- C30: forward iteration from `cbegin()` to `cend()` visits the elements of the
Sequence Store in order, positions 0 to `size()-1`, and ends after `size()` steps;
reverse iteration from `crbegin()` to `crend()` visits exactly the reverse; on an
empty container `cbegin() == cend()` and `crbegin() == crend()`. -/
theorem iteration_spec (c : deque_of_unique T) (fuel : Nat) (hfuel : c.size ≤ fuel) :
    visit_forward c fuel c.cbegin c.cend = c.deque_ ∧
    visit_reverse c fuel c.crbegin c.crend = c.deque_.reverse ∧
    (∀ i : Nat, (visit_forward c fuel c.cbegin c.cend)[i]? = c.deque_[i]?) ∧
    (c.empty = true → c.cbegin = c.cend ∧ c.crbegin = c.crend) := by
  have hfuel' : c.deque_.length ≤ fuel := hfuel
  have hf : visit_forward c fuel c.cbegin c.cend = c.deque_ := by
    show visit_forward c fuel 0 c.deque_.length = c.deque_
    rw [visit_forward_eq_drop c fuel 0 (Nat.zero_le _) (by omega)]
    rfl
  have hr : visit_reverse c fuel c.crbegin c.crend = c.deque_.reverse := by
    show visit_reverse c fuel c.deque_.length 0 = c.deque_.reverse
    rw [visit_reverse_eq_take c fuel _ (Nat.le_refl _) hfuel', List.take_length]
  refine ⟨hf, hr, fun i => by rw [hf], ?_⟩
  intro he
  have hd : c.deque_ = [] := by simpa [empty] using he
  simp [cbegin, cend, crbegin, crend, hd]

/-- Witness of C30: both iterations over the container constructed from
`[1,2,3,4]`, with room for six steps. -/
theorem iteration_spec_witness :
    (mk_range [1, 2, 3, 4]).size ≤ 6 ∧
    visit_forward (mk_range [1, 2, 3, 4]) 6 (cbegin (mk_range [1, 2, 3, 4]))
      (cend (mk_range [1, 2, 3, 4])) = (mk_range [1, 2, 3, 4]).deque_ ∧
    visit_reverse (mk_range [1, 2, 3, 4]) 6 (crbegin (mk_range [1, 2, 3, 4]))
      (crend (mk_range [1, 2, 3, 4])) = [4, 3, 2, 1] :=
  ⟨by decide, (iteration_spec (mk_range [1, 2, 3, 4]) 6 (by decide)).1, by decide⟩

/-! ## The operations modelled from the spec -/

theorem filter_not_cons_of_true {α : Type} (p : α → Bool) (x : α) (xs : List α)
    (h : p x = true) :
    (x :: xs).filter (fun y => !p y) = xs.filter (fun y => !p y) := by
  simp [List.filter_cons, h]

theorem filter_not_cons_of_false {α : Type} (p : α → Bool) (x : α) (xs : List α)
    (h : p x = false) :
    (x :: xs).filter (fun y => !p y) = x :: xs.filter (fun y => !p y) := by
  simp [List.filter_cons, h]

theorem length_filter_add_length_filter_not {α : Type} (p : α → Bool) (l : List α) :
    (l.filter (fun x => !p x)).length + (l.filter p).length = l.length := by
  induction l with
  | nil => rfl
  | cons x xs ih =>
    cases hx : p x with
    | true =>
      rw [List.filter_cons_of_pos hx, filter_not_cons_of_true p x xs hx, List.length_cons,
        List.length_cons, ← ih]
      omega
    | false =>
      have h2 : ¬ (p x = true) := by simp [hx]
      rw [filter_not_cons_of_false p x xs hx, List.filter_cons_of_neg h2, List.length_cons,
        List.length_cons, ← ih]
      omega

theorem erase_if_foldl (pred : T → Bool) (r : List T) :
    ∀ (kept : List T) (s : Finset T) (n : Nat), (∀ y ∈ kept, pred y = false) →
      r.foldl
        (fun (acc : deque_of_unique T × Nat) x =>
          if pred x then
            ({ deque_ := acc.1.deque_.erase x, set_ := acc.1.set_.erase x }, acc.2 + 1)
          else acc)
        ({ deque_ := kept ++ r, set_ := s }, n)
      = ({ deque_ := kept ++ r.filter (fun x => !pred x),
           set_ := s \ (r.filter pred).toFinset }, n + (r.filter pred).length) := by
  induction r with
  | nil =>
    intro kept s n _
    simp
  | cons x xs ih =>
    intro kept s n hkept
    rw [List.foldl_cons]
    cases hx : pred x with
    | true =>
      have hxk : x ∉ kept := fun h => by
        have := hkept x h
        rw [hx] at this
        cases this
      have herase : (kept ++ x :: xs).erase x = kept ++ xs := by
        rw [List.erase_append_right _ hxk, List.erase_cons_head]
      simp only [if_true, herase]
      rw [ih kept (s.erase x) (n + 1) hkept, filter_not_cons_of_true pred x xs hx,
        List.filter_cons_of_pos hx]
      congr 1
      · congr 1
        ext y
        simp only [Finset.mem_sdiff, Finset.mem_erase, List.toFinset_cons, Finset.mem_insert,
          List.mem_toFinset]
        tauto
      · rw [List.length_cons]
        omega
    | false =>
      have hkept' : ∀ y ∈ kept ++ [x], pred y = false := by
        intro y hy
        rcases List.mem_append.mp hy with h | h
        · exact hkept y h
        · rw [List.mem_singleton.mp h]
          exact hx
      have hsplit : kept ++ x :: xs = (kept ++ [x]) ++ xs := by simp
      simp only [Bool.false_eq_true, if_false]
      have h2 : ¬ (pred x = true) := by simp [hx]
      rw [hsplit, ih (kept ++ [x]) s n hkept', filter_not_cons_of_false pred x xs hx,
        List.filter_cons_of_neg h2]
      simp

theorem erase_if_eq (c : deque_of_unique T) (pred : T → Bool) :
    containerofunique.erase_if c pred
      = ({ deque_ := c.deque_.filter (fun x => !pred x),
           set_ := c.set_ \ (c.deque_.filter pred).toFinset }, (c.deque_.filter pred).length) := by
  have h := erase_if_foldl pred c.deque_ [] c.set_ 0 (fun _ h => absurd h (List.not_mem_nil _))
  simp only [List.nil_append, Nat.zero_add] at h
  exact h

/-- C31: the non-member `erase_if(container, predicate)` removes exactly the elements
that satisfy the predicate, from both stores, leaves the others in their original
relative order, and returns the number of elements removed; on `{1,2,3,4,5,6}` with
the is-even predicate it removes `{2,4,6}`, returns 3 and leaves `{1,3,5}`. -/
theorem erase_if_spec (c : deque_of_unique T) (pred : T → Bool) :
    (containerofunique.erase_if c pred).1.deque_ = c.deque_.filter (fun x => !pred x) ∧
    (containerofunique.erase_if c pred).1.set_ = c.set_ \ (c.deque_.filter pred).toFinset ∧
    (containerofunique.erase_if c pred).2 = (c.deque_.filter pred).length ∧
    (containerofunique.erase_if c pred).1.deque_.Sublist c.deque_ ∧
    (containerofunique.erase_if c pred).1.size + (containerofunique.erase_if c pred).2 = c.size ∧
    (Inv c →
      Inv (containerofunique.erase_if c pred).1 ∧
      ∀ y, y ∈ (containerofunique.erase_if c pred).1.set_ ↔ y ∈ c.set_ ∧ pred y = false) ∧
    containerofunique.erase_if (mk_range [1, 2, 3, 4, 5, 6]) (fun x => x % 2 == 0)
      = (mk_range [1, 3, 5], 3) := by
  rw [erase_if_eq]
  refine ⟨rfl, rfl, rfl, List.filter_sublist _, length_filter_add_length_filter_not pred _, ?_,
    by decide⟩
  intro hc
  have hi := (inv_iff c).mp hc
  have hmem : ∀ y, y ∈ c.set_ \ (c.deque_.filter pred).toFinset ↔ y ∈ c.set_ ∧ pred y = false := by
    intro y
    rw [Finset.mem_sdiff, List.mem_toFinset, List.mem_filter, hi.2, List.mem_toFinset]
    constructor
    · rintro ⟨hy, hn⟩
      refine ⟨hy, ?_⟩
      cases hp : pred y with
      | false => rfl
      | true => exact absurd ⟨hy, hp⟩ hn
    · rintro ⟨hy, hp⟩
      exact ⟨hy, fun h => by rw [hp] at h; cases h.2⟩
  refine ⟨(inv_iff _).mpr ⟨hi.1.sublist (List.filter_sublist _), ?_⟩, hmem⟩
  ext y
  rw [hmem y, List.mem_toFinset, List.mem_filter, hi.2, List.mem_toFinset]
  simp

/-- Witness of C31: `erase_if` with the is-even predicate on the container
constructed from `[1,2,3,4,5,6]`. -/
theorem erase_if_spec_witness :
    Inv (mk_range [1, 2, 3, 4, 5, 6]) ∧
    Inv (containerofunique.erase_if (mk_range [1, 2, 3, 4, 5, 6]) (fun x => x % 2 == 0)).1 ∧
    (containerofunique.erase_if (mk_range [1, 2, 3, 4, 5, 6]) (fun x => x % 2 == 0)).2 = 3 :=
  ⟨(inv_iff _).mpr (by decide),
   ((erase_if_spec (mk_range [1, 2, 3, 4, 5, 6]) (fun x => x % 2 == 0)).2.2.2.2.2.1
      ((inv_iff _).mpr (by decide))).1,
   by decide⟩

/-- C32: on a container satisfying the invariants, the non-member
`erase(container, x)` returns 1 when `x` is a member and then `x` is in neither
store, every other element is where it was relative to the others, and `size()` has
dropped by 1; when `x` is not a member it returns 0 and changes nothing. -/
theorem nonmember_erase_spec (c : deque_of_unique T) (hc : Inv c) (x : T) :
    (x ∈ c.deque_ →
      (containerofunique.erase c x).2 = 1 ∧
      x ∉ (containerofunique.erase c x).1.deque_ ∧
      x ∉ (containerofunique.erase c x).1.set_ ∧
      (containerofunique.erase c x).1.size + 1 = c.size ∧
      (∀ y, y ≠ x →
        ((y ∈ (containerofunique.erase c x).1.deque_ ↔ y ∈ c.deque_) ∧
         (y ∈ (containerofunique.erase c x).1.set_ ↔ y ∈ c.set_))) ∧
      (containerofunique.erase c x).1.deque_.Sublist c.deque_ ∧
      Inv (containerofunique.erase c x).1) ∧
    (x ∉ c.deque_ → containerofunique.erase c x = (c, 0)) := by
  constructor
  · intro hx
    have he : containerofunique.erase c x
        = ({ deque_ := c.deque_.erase x, set_ := c.set_.erase x }, 1) := by
      simp [containerofunique.erase, hx]
    rw [he]
    have hnd : c.deque_.Nodup := hc.2.2
    refine ⟨rfl, ?_, Finset.not_mem_erase _ _, ?_, ?_, List.erase_sublist _ _,
      inv_of_cons_perm hc (List.perm_cons_erase hx)⟩
    · intro h
      exact (hnd.mem_erase_iff.mp h).1 rfl
    · show (c.deque_.erase x).length + 1 = c.deque_.length
      rw [List.length_erase_of_mem hx]
      have := List.length_pos_of_mem hx
      omega
    · intro y hy
      refine ⟨?_, ?_⟩
      · show y ∈ c.deque_.erase x ↔ y ∈ c.deque_
        rw [hnd.mem_erase_iff]
        exact ⟨fun h => h.2, fun h => ⟨hy, h⟩⟩
      · show y ∈ c.set_.erase x ↔ y ∈ c.set_
        rw [Finset.mem_erase]
        exact ⟨fun h => h.2, fun h => ⟨hy, h⟩⟩
  · intro hx
    simp [containerofunique.erase, hx]

/-- Witness of C32: `erase(dou, 2)` and `erase(dou, 9)` on the container constructed
from `[1,2,3]`. -/
theorem nonmember_erase_spec_witness :
    (Inv (mk_range [1, 2, 3]) ∧ 2 ∈ (mk_range [1, 2, 3]).deque_ ∧ 9 ∉ (mk_range [1, 2, 3]).deque_) ∧
    (containerofunique.erase (mk_range [1, 2, 3]) 2).2 = 1 ∧
    containerofunique.erase (mk_range [1, 2, 3]) 9 = (mk_range [1, 2, 3], 0) ∧
    (containerofunique.erase (mk_range [1, 2, 3]) 2).1 = mk_range [1, 3] :=
  ⟨⟨(inv_iff _).mpr (by decide), by decide, by decide⟩,
   ((nonmember_erase_spec (mk_range [1, 2, 3]) ((inv_iff _).mpr (by decide)) 2).1
      (by decide)).1,
   (nonmember_erase_spec (mk_range [1, 2, 3]) ((inv_iff _).mpr (by decide)) 9).2 (by decide),
   by decide⟩

/-- C33: on a container satisfying the invariants, `find(v)` returns an iterator to
the Sequence Store element equal to `v` when `v` is a member, the only position
that holds `v`, and the end iterator when `v` is not a member, in particular on an
empty container. The member is `const` and its result a function of the state and
`v`: a repeated lookup on an unchanged container returns the same position. -/
theorem find_spec (c : deque_of_unique T) (hc : Inv c) (v : T) :
    (v ∈ c.deque_ → find c v < c.size ∧ c.deque_[find c v]? = some v) ∧
    (v ∉ c.deque_ → find c v = c.cend) ∧
    (c.empty = true → find c v = c.cend) ∧
    (∀ i : Nat, c.deque_[i]? = some v → find c v = i) := by
  have hmem : v ∈ c.deque_ ↔ v ∈ c.set_ := hc.2.1 v
  have hin : v ∈ c.deque_ → find c v = c.deque_.indexOf v := by
    intro hv
    simp [find, hmem.mp hv]
  have hout : v ∉ c.deque_ → find c v = c.cend := by
    intro hv
    have hs : v ∉ c.set_ := fun h => hv (hmem.mpr h)
    simp [find, hs]
  refine ⟨?_, hout, ?_, ?_⟩
  · intro hv
    rw [hin hv]
    exact ⟨List.indexOf_lt_length.mpr hv, List.getElem?_indexOf hv⟩
  · intro he
    have hd : c.deque_ = [] := by simpa [empty] using he
    exact hout (by rw [hd]; exact List.not_mem_nil v)
  · intro i hi
    obtain ⟨hlt, hget⟩ := List.getElem?_eq_some_iff.mp hi
    have hv : v ∈ c.deque_ := hget ▸ List.getElem_mem hlt
    rw [hin hv]
    have := List.indexOf_getElem hc.2.2 i hlt
    rw [hget] at this
    exact this

/-- Witness of C33: `find(20)` and `find(40)` on the container constructed from
`[10,20,30]`. -/
theorem find_spec_witness :
    (Inv (mk_range [10, 20, 30]) ∧ 20 ∈ (mk_range [10, 20, 30]).deque_
      ∧ 40 ∉ (mk_range [10, 20, 30]).deque_) ∧
    (mk_range [10, 20, 30]).deque_[find (mk_range [10, 20, 30]) 20]? = some 20 ∧
    find (mk_range [10, 20, 30]) 40 = cend (mk_range [10, 20, 30]) :=
  ⟨⟨(inv_iff _).mpr (by decide), by decide, by decide⟩,
   ((find_spec (mk_range [10, 20, 30]) ((inv_iff _).mpr (by decide)) 20).1 (by decide)).2,
   (find_spec (mk_range [10, 20, 30]) ((inv_iff _).mpr (by decide)) 40).2.1 (by decide)⟩

/-- C34: `assign(xs)` on any container replaces its contents: the Sequence Store is
`xs` with later duplicates dropped, in input order, and the Membership Index holds
exactly those elements. `[1,2,2,3,3,4]` gives `[1,2,3,4]`; `[3,4,5]` assigned to a
container holding `[1,2,3]` gives `[3,4,5]`; an empty range leaves both stores
empty. -/
theorem assign_spec (c : deque_of_unique T) (xs : List T) :
    (assign c xs).deque_ = keep_first_occurrence xs ∧
    (assign c xs).set_ = xs.toFinset ∧
    (assign c xs).set_ = (assign c xs).deque_.toFinset ∧
    assign c xs = mk_range xs ∧
    (assign mk_default [1, 2, 2, 3, 3, 4]).deque_ = [1, 2, 3, 4] ∧
    (assign (mk_range [1, 2, 3]) [3, 4, 5]).deque_ = [3, 4, 5] ∧
    (assign (mk_range [1, 2, 3]) [3, 4, 5]).set_ = {3, 4, 5} ∧
    ((assign c []).deque_ = [] ∧ (assign c []).set_ = ∅) := by
  have h : assign c xs = mk_range xs := rfl
  refine ⟨by rw [h, mk_range_deque], by rw [h, mk_range_set], ?_, h, by decide, by decide,
    by decide, rfl, rfl⟩
  rw [h]
  exact ((inv_iff _).mp (inv_mk_range xs)).2

/-! ## Order preservation -/

theorem filter_mem_of_sublist {l₁ l₂ : List T} (h : l₁.Sublist l₂) (hnd : l₂.Nodup) :
    l₂.filter (fun x => x ∈ l₁) = l₁ := by
  induction h with
  | slnil => rfl
  | @cons l₁ l₂ a h ih =>
    obtain ⟨ha, hnd'⟩ := List.nodup_cons.mp hnd
    have ha1 : a ∉ l₁ := fun h' => ha (h.subset h')
    rw [List.filter_cons_of_neg (by simpa using ha1)]
    exact ih hnd'
  | @cons₂ l₁ l₂ a h ih =>
    obtain ⟨ha, hnd'⟩ := List.nodup_cons.mp hnd
    rw [List.filter_cons_of_pos (by simp)]
    congr 1
    have hcongr : l₂.filter (fun x => x ∈ a :: l₁) = l₂.filter (fun x => x ∈ l₁) := by
      apply List.filter_congr
      intro y hy
      have hne : y ≠ a := fun h' => ha (h' ▸ hy)
      simp [hne]
    rw [hcongr, ih hnd']

theorem filter_mem_of_subset {l₁ l₂ : List T} (h : l₁ ⊆ l₂) :
    l₁.filter (fun x => x ∈ l₂) = l₁ := by
  rw [List.filter_eq_self]
  intro a ha
  simpa using h ha

theorem same_relative_order_of_grow {before after : List T} (h : before.Sublist after)
    (hnd : after.Nodup) : same_relative_order before after := by
  unfold same_relative_order
  rw [filter_mem_of_sublist h hnd, filter_mem_of_subset h.subset]

theorem same_relative_order_of_shrink {before after : List T} (h : after.Sublist before)
    (hnd : before.Nodup) : same_relative_order before after := by
  unfold same_relative_order
  rw [filter_mem_of_sublist h hnd, filter_mem_of_subset h.subset]

theorem sublist_deque_insert {α : Type} (d : List α) (pos : Nat) (v : α) :
    d.Sublist (deque_insert d pos v) := by
  unfold deque_insert
  conv_lhs => rw [← List.take_append_drop pos d]
  exact List.Sublist.append_left (List.sublist_cons_self v _) _

theorem deque_erase_range_sublist {α : Type} (d : List α) (first last : Nat)
    (h : first ≤ last) : (deque_erase_range d first last).Sublist d := by
  unfold deque_erase_range
  conv_rhs => rw [← List.take_append_drop first d]
  exact List.Sublist.append_left (List.drop_sublist_drop_left d h) _

theorem deque_erase_sublist {α : Type} (d : List α) (pos : Nat) :
    (deque_erase d pos).Sublist d :=
  deque_erase_range_sublist d pos (pos + 1) (Nat.le_succ pos)

theorem sublist_push_back (c : deque_of_unique T) (v : T) :
    c.deque_.Sublist (push_back c v).1.deque_ := by
  unfold push_back
  split
  · exact List.sublist_append_left _ _
  · exact List.Sublist.refl _

theorem sublist_push_front (c : deque_of_unique T) (v : T) :
    c.deque_.Sublist (push_front c v).1.deque_ := by
  unfold push_front
  split
  · exact List.sublist_cons_self _ _
  · exact List.Sublist.refl _

theorem sublist_insert (c : deque_of_unique T) (pos : Nat) (v : T) :
    c.deque_.Sublist (insert c pos v).1.deque_ := by
  unfold insert
  split
  · exact sublist_deque_insert _ _ _
  · exact List.Sublist.refl _

theorem sublist_emplace (c : deque_of_unique T) (pos : Nat) (v : T) :
    c.deque_.Sublist (emplace c pos v).1.deque_ := by
  unfold emplace
  split
  · exact sublist_deque_insert _ _ _
  · exact List.Sublist.refl _

theorem sublist_emplace_front (c : deque_of_unique T) (v : T) :
    c.deque_.Sublist (emplace_front c v).1.deque_ := by
  unfold emplace_front
  split
  · exact List.sublist_cons_self _ _
  · exact List.Sublist.refl _

theorem sublist_emplace_back (c : deque_of_unique T) (v : T) :
    c.deque_.Sublist (emplace_back c v).1.deque_ := by
  unfold emplace_back
  split
  · exact List.sublist_append_left _ _
  · exact List.Sublist.refl _

theorem sublist_insert_range (c : deque_of_unique T) (hc : Inv c) (pos : Nat)
    (hp : pos ≤ c.size) (xs : List T) :
    c.deque_.Sublist (insert_range c pos xs).1.deque_ := by
  have h : (insert_range c pos xs).1.deque_
      = c.deque_.take pos ++ accepted_elements c.deque_ xs ++ c.deque_.drop pos :=
    (insert_range_loop_spec c hc pos hp xs).1
  rw [h]
  conv_lhs => rw [← List.take_append_drop pos c.deque_]
  exact List.Sublist.append (List.sublist_append_left _ _) (List.Sublist.refl _)

theorem pop_front_sublist (c : deque_of_unique T) (key : T) :
    (pop_front c key).deque_.Sublist c.deque_ := by
  unfold pop_front
  split
  · exact List.Sublist.refl _
  · rename_i f rest heq
    rw [heq]
    exact List.sublist_cons_self _ _

theorem pop_back_sublist (c : deque_of_unique T) (key : T) :
    (pop_back c key).deque_.Sublist c.deque_ := by
  unfold pop_back
  split
  · exact List.Sublist.refl _
  · exact List.dropLast_sublist _

theorem erase_sublist_self (c : deque_of_unique T) (pos : Nat) :
    (erase c pos).1.deque_.Sublist c.deque_ := by
  unfold erase
  split
  · exact List.Sublist.refl _
  · split
    · exact deque_erase_sublist _ _
    · exact List.Sublist.refl _

theorem erase_range_sublist (c : deque_of_unique T) (first last : Nat) (h : first ≤ last) :
    (erase_range c first last).1.deque_.Sublist c.deque_ := by
  unfold erase_range
  split
  · exact List.Sublist.refl _
  · exact deque_erase_range_sublist _ _ _ h

/-- C35 (order preservation, I4): on a container satisfying the invariants, after a
single `push_front`, `push_back`, `insert` of a value or of a range, `emplace`,
`emplace_front` or `emplace_back` the old sequence is a subsequence of the new one,
so no element is removed; after a single `pop_front`, `pop_back` or `erase` of a
position or of a range the new sequence is a subsequence of the old one; in every
case the elements present both before and after stand in the same relative
order. Positions are in range. For `pop_front` and `pop_back` this holds whatever
`key` their read of the destroyed element yields: the key goes to the Membership
Index only. -/
theorem order_preserved (c : deque_of_unique T) (hc : Inv c) (v : T) (xs : List T)
    (p q first last : Nat) (key : T) :
    (c.deque_.Sublist (push_front c v).1.deque_ ∧
      same_relative_order c.deque_ (push_front c v).1.deque_) ∧
    (c.deque_.Sublist (push_back c v).1.deque_ ∧
      same_relative_order c.deque_ (push_back c v).1.deque_) ∧
    (p ≤ c.size →
      c.deque_.Sublist (insert c p v).1.deque_ ∧
      same_relative_order c.deque_ (insert c p v).1.deque_) ∧
    (p ≤ c.size →
      c.deque_.Sublist (insert_range c p xs).1.deque_ ∧
      same_relative_order c.deque_ (insert_range c p xs).1.deque_) ∧
    (p ≤ c.size →
      c.deque_.Sublist (emplace c p v).1.deque_ ∧
      same_relative_order c.deque_ (emplace c p v).1.deque_) ∧
    (c.deque_.Sublist (emplace_front c v).1.deque_ ∧
      same_relative_order c.deque_ (emplace_front c v).1.deque_) ∧
    (c.deque_.Sublist (emplace_back c v).1.deque_ ∧
      same_relative_order c.deque_ (emplace_back c v).1.deque_) ∧
    ((pop_front c key).deque_.Sublist c.deque_ ∧
      same_relative_order c.deque_ (pop_front c key).deque_) ∧
    ((pop_back c key).deque_.Sublist c.deque_ ∧
      same_relative_order c.deque_ (pop_back c key).deque_) ∧
    (q < c.size →
      (erase c q).1.deque_.Sublist c.deque_ ∧
      same_relative_order c.deque_ (erase c q).1.deque_) ∧
    (first ≤ last → last ≤ c.size →
      (erase_range c first last).1.deque_.Sublist c.deque_ ∧
      same_relative_order c.deque_ (erase_range c first last).1.deque_) := by
  have hnd : c.deque_.Nodup := hc.2.2
  refine ⟨⟨sublist_push_front c v, ?_⟩, ⟨sublist_push_back c v, ?_⟩, fun _ => ⟨sublist_insert c p v, ?_⟩,
    fun hp => ⟨sublist_insert_range c hc p hp xs, ?_⟩, fun _ => ⟨sublist_emplace c p v, ?_⟩,
    ⟨sublist_emplace_front c v, ?_⟩, ⟨sublist_emplace_back c v, ?_⟩,
    ⟨pop_front_sublist c key, ?_⟩, ⟨pop_back_sublist c key, ?_⟩,
    fun _ => ⟨erase_sublist_self c q, ?_⟩,
    fun hfl _ => ⟨erase_range_sublist c first last hfl, ?_⟩⟩
  · exact same_relative_order_of_grow (sublist_push_front c v) (inv_push_front hc v).2.2
  · exact same_relative_order_of_grow (sublist_push_back c v) (inv_push_back hc v).2.2
  · exact same_relative_order_of_grow (sublist_insert c p v) (inv_insert hc p v).2.2
  · exact same_relative_order_of_grow (sublist_insert_range c hc p hp xs)
      (inv_insert_range hc p xs).2.2
  · exact same_relative_order_of_grow (sublist_emplace c p v) (inv_emplace hc p v).2.2
  · exact same_relative_order_of_grow (sublist_emplace_front c v) (inv_emplace_front hc v).2.2
  · exact same_relative_order_of_grow (sublist_emplace_back c v) (inv_emplace_back hc v).2.2
  · exact same_relative_order_of_shrink (pop_front_sublist c key) hnd
  · exact same_relative_order_of_shrink (pop_back_sublist c key) hnd
  · exact same_relative_order_of_shrink (erase_sublist_self c q) hnd
  · exact same_relative_order_of_shrink (erase_range_sublist c first last hfl) hnd

/-- Witness of C35: on the container constructed from `[1,2,3,4]`, a range insert at
offset 2 and an erase of the range `[1,3)`. -/
theorem order_preserved_witness :
    (Inv (mk_range [1, 2, 3, 4]) ∧ 2 ≤ (mk_range [1, 2, 3, 4]).size ∧
      1 ≤ 3 ∧ 3 ≤ (mk_range [1, 2, 3, 4]).size) ∧
    same_relative_order (mk_range [1, 2, 3, 4]).deque_
      (insert_range (mk_range [1, 2, 3, 4]) 2 [4, 9, 1, 8]).1.deque_ ∧
    same_relative_order (mk_range [1, 2, 3, 4]).deque_
      (erase_range (mk_range [1, 2, 3, 4]) 1 3).1.deque_ :=
  ⟨⟨(inv_iff _).mpr (by decide), by decide, by decide, by decide⟩,
   ((order_preserved (mk_range [1, 2, 3, 4]) ((inv_iff _).mpr (by decide)) 0 [4, 9, 1, 8]
      2 0 1 3 0).2.2.2.1 (by decide)).2,
   ((order_preserved (mk_range [1, 2, 3, 4]) ((inv_iff _).mpr (by decide)) 0 [4, 9, 1, 8]
      2 0 1 3 0).2.2.2.2.2.2.2.2.2.2 (by decide) (by decide)).2⟩

/-! ## Removal followed by insertion, and agreement between operations -/

theorem push_back_of_not_mem (c : deque_of_unique T) (v : T) (hv : v ∉ c.set_) :
    push_back c v = ({ deque_ := c.deque_ ++ [v], set_ := Insert.insert v c.set_ }, true) := by
  simp [push_back, hv]

theorem push_front_of_not_mem (c : deque_of_unique T) (v : T) (hv : v ∉ c.set_) :
    push_front c v = ({ deque_ := v :: c.deque_, set_ := Insert.insert v c.set_ }, true) := by
  simp [push_front, hv]

/-- C36, evaluated on the code: the container constructed from three 32-character
strings satisfies the invariants; after `pop_front()`, the read of the destroyed
front element yielding the bytes of a freed buffer, the removed string is still in
the Membership Index and `push_back` of it returns false; the same after
`pop_back()` with the last string. After `erase(cbegin())`, which reads the key
before the element is destroyed, `push_back` of the removed string returns true. -/
theorem push_back_after_pop_rejected :
    Inv (mk_range [long_a, long_b, long_c]) ∧
    (long_a ∉ (pop_front (mk_range [long_a, long_b, long_c]) freed_bytes).deque_ ∧
      long_a ∈ (pop_front (mk_range [long_a, long_b, long_c]) freed_bytes).set_ ∧
      (push_back (pop_front (mk_range [long_a, long_b, long_c]) freed_bytes) long_a).2 = false) ∧
    (long_c ∉ (pop_back (mk_range [long_a, long_b, long_c]) freed_bytes).deque_ ∧
      long_c ∈ (pop_back (mk_range [long_a, long_b, long_c]) freed_bytes).set_ ∧
      (push_back (pop_back (mk_range [long_a, long_b, long_c]) freed_bytes) long_c).2 = false) ∧
    (push_back (erase (mk_range [long_a, long_b, long_c]) 0).1 long_a).2 = true :=
  ⟨(inv_iff _).mpr (by decide), ⟨by decide, by decide, by decide⟩,
   ⟨by decide, by decide, by decide⟩, by decide⟩

/-- C37, evaluated on the code: on the container constructed from three 32-character
strings, which satisfies the invariants, `push_back` of a fourth string followed by
`pop_back()`, the read of the destroyed back element yielding the bytes of a freed
buffer, restores the Sequence Store and leaves the fourth string in the Membership
Index: the state is not the original one. The same for `push_front` followed by
`pop_front()`. -/
theorem round_trip_keeps_key :
    (Inv (mk_range [long_a, long_b, long_c]) ∧
      long_d ∉ (mk_range [long_a, long_b, long_c]).deque_) ∧
    ((pop_back (push_back (mk_range [long_a, long_b, long_c]) long_d).1 freed_bytes).deque_
        = (mk_range [long_a, long_b, long_c]).deque_ ∧
      long_d ∈ (pop_back (push_back (mk_range [long_a, long_b, long_c]) long_d).1
        freed_bytes).set_ ∧
      pop_back (push_back (mk_range [long_a, long_b, long_c]) long_d).1 freed_bytes
        ≠ mk_range [long_a, long_b, long_c]) ∧
    ((pop_front (push_front (mk_range [long_a, long_b, long_c]) long_d).1 freed_bytes).deque_
        = (mk_range [long_a, long_b, long_c]).deque_ ∧
      long_d ∈ (pop_front (push_front (mk_range [long_a, long_b, long_c]) long_d).1
        freed_bytes).set_ ∧
      pop_front (push_front (mk_range [long_a, long_b, long_c]) long_d).1 freed_bytes
        ≠ mk_range [long_a, long_b, long_c]) :=
  ⟨⟨(inv_iff _).mpr (by decide), by decide⟩, ⟨by decide, by decide, by decide⟩,
   ⟨by decide, by decide, by decide⟩⟩

theorem deque_insert_cend {α : Type} (d : List α) (v : α) :
    deque_insert d d.length v = d ++ [v] := by
  unfold deque_insert
  rw [List.take_length, List.drop_length]

theorem deque_insert_cbegin {α : Type} (d : List α) (v : α) :
    deque_insert d 0 v = v :: d := rfl

/-- C38: for every container and every value `v`, `push_back(v)` gives the same state
and the same flag as `insert(cend(), v)`, and `push_front(v)` the same as
`insert(cbegin(), v)`; `emplace_back` and `emplace_front` of `v` give the same
state as those inserts and a present result exactly when the insert reports
success. -/
theorem end_operations_eq_insert (c : deque_of_unique T) (v : T) :
    push_back c v = ((insert c c.cend v).1, (insert c c.cend v).2.2) ∧
    push_front c v = ((insert c c.cbegin v).1, (insert c c.cbegin v).2.2) ∧
    (emplace_back c v).1 = (insert c c.cend v).1 ∧
    (emplace_back c v).2.isSome = (insert c c.cend v).2.2 ∧
    (emplace_front c v).1 = (insert c c.cbegin v).1 ∧
    (emplace_front c v).2.isSome = (insert c c.cbegin v).2.2 := by
  by_cases hv : v ∈ c.set_
  · simp [push_back, push_front, emplace_back, emplace_front, insert, hv]
  · simp [push_back, push_front, emplace_back, emplace_front, insert, hv, cend, cbegin,
      deque_insert_cend, deque_insert_cbegin]

theorem insert_range_step_eq_insert (st : insert_loop T) (x : T) :
    ((insert_range_step st x).self, (insert_range_step st x).temp_pos)
      = (if (insert st.self st.temp_pos x).2.2
          then ((insert st.self st.temp_pos x).1, st.temp_pos + 1)
          else ((insert st.self st.temp_pos x).1, st.temp_pos)) := by
  by_cases hx : x ∈ st.self.set_
  · simp [insert_range_step, insert, hx]
  · simp [insert_range_step, insert, hx]

theorem foldl_insert_range_step_eq (xs : List T) :
    ∀ st : insert_loop T,
      ((xs.foldl insert_range_step st).self, (xs.foldl insert_range_step st).temp_pos)
        = insert_one_by_one st.self st.temp_pos xs := by
  induction xs with
  | nil => intro st; rfl
  | cons x xs ih =>
    intro st
    rw [List.foldl_cons, ih (insert_range_step st x)]
    unfold insert_one_by_one
    rw [List.foldl_cons]
    congr 1
    exact insert_range_step_eq_insert st x

/-- C39: for every container, every position `p` and every input list `xs`,
`insert(p, xs)` gives the same final state as inserting the elements of `xs` one at
a time with `insert(q, x)`, starting with `q = p`, advancing `q` by one after each
insert that reports success and leaving it after each one that reports failure. -/
theorem insert_range_eq_one_by_one (c : deque_of_unique T) (p : Nat) (xs : List T) :
    (insert_range c p xs).1 = (insert_one_by_one c p xs).1 ∧
    (insert_range_loop c p xs).temp_pos = (insert_one_by_one c p xs).2 ∧
    (insert_range (mk_range [1, 2, 3]) 1 [2, 7, 7, 8, 1, 9]).1.deque_ = [1, 7, 8, 9, 2, 3] ∧
    (insert_one_by_one (mk_range [1, 2, 3]) 1 [2, 7, 7, 8, 1, 9]).1.deque_
      = [1, 7, 8, 9, 2, 3] := by
  have h : ((insert_range_loop c p xs).self, (insert_range_loop c p xs).temp_pos)
      = insert_one_by_one c p xs :=
    foldl_insert_range_step_eq xs
      { self := c, temp_pos := p, first_inserted_index := p, any_inserted := false }
  have h1 : (insert_range_loop c p xs).self = (insert_one_by_one c p xs).1 :=
    congrArg Prod.fst h
  have h2 : (insert_range_loop c p xs).temp_pos = (insert_one_by_one c p xs).2 :=
    congrArg Prod.snd h
  exact ⟨h1, h2, by decide, by decide⟩

/-! ## The reference read by `pop_front` and `pop_back` -/

theorem read_reference_none {α : Type} (live : List (Nat × α)) (place : Nat)
    (h : ∀ o ∈ live, o.1 ≠ place) : read_reference live place = none := by
  unfold read_reference
  rw [List.find?_eq_none.mpr, Option.map_none']
  intro o ho
  simpa using h o ho

theorem pop_front_key_dangling (c : deque_of_unique T) (hne : c.deque_ ≠ []) :
    pop_front_key c = some none := by
  unfold pop_front_key objects
  cases hd : c.deque_ with
  | nil => exact absurd hd hne
  | cons a l =>
    rw [List.enum_cons]
    show some (read_reference (List.enumFrom 1 l) 0) = some none
    rw [read_reference_none]
    intro o ho
    have := List.le_fst_of_mem_enumFrom ho
    omega

theorem pop_back_key_dangling (c : deque_of_unique T) (hne : c.deque_ ≠ []) :
    pop_back_key c = some none := by
  unfold pop_back_key objects
  rcases List.eq_nil_or_concat c.deque_ with hd | ⟨l, a, hd⟩
  · exact absurd hd hne
  · rw [hd, List.concat_eq_append, List.enum_append]
    have henum : List.enumFrom l.length [a] = [(l.length, a)] := rfl
    rw [henum, List.getLast?_concat, List.dropLast_concat]
    show some (read_reference (List.enum l) l.length) = some none
    rw [read_reference_none]
    intro o ho
    have := List.fst_lt_of_mem_enum ho
    omega

/-- C40, evaluated on the code: in `pop_front()` and in `pop_back()` of a non-empty
container, for instance the one constructed from `[1,2,3]`, the read of `f` inside
`set_.erase(f)` happens after `deque_.pop_front()` (`deque_.pop_back()`) has
destroyed the object `f` is bound to: the reference designates no live object and
the key is never a valid value. -/
theorem pop_key_read_after_destroy :
    pop_front_key (mk_range [1, 2, 3]) = some none ∧
    pop_back_key (mk_range [1, 2, 3]) = some none ∧
    (∀ (c : deque_of_unique T) (k : T),
      pop_front_key c ≠ some (some k) ∧ pop_back_key c ≠ some (some k)) := by
  refine ⟨by decide, by decide, ?_⟩
  intro c k
  by_cases hne : c.deque_ = []
  · constructor
    · simp [pop_front_key, objects, hne]
    · simp [pop_back_key, objects, hne]
  · rw [pop_front_key_dangling c hne, pop_back_key_dangling c hne]
    exact ⟨by simp, by simp⟩

end deque_of_unique

end containerofunique
